/-
Verification of the emotion-HMM core of the VP2 repository.

The development shallowly embeds the Python sources
  app/services/emotion/emoti_shing_hmm.py
  app/services/emotion/emotion_sequence.py
  app/services/hmm/runner.py
into Lean:

* Python values that flow through the label-normalization layer are modelled
  by the inductive `PyVal` (None, strings, numbers, lists, dicts); Python
  dicts become association lists looked up by first match (Python dict
  literals in the sources have unique keys).
* Python floats are idealized as exact rationals (`ℚ`).  The sources compute
  Viterbi scores and log-likelihoods in log space (`math.log`, with
  probability 0 mapped to `float("-inf")`); the embedding carries the same
  quantities in probability space (products of rationals, with 0 standing
  for `-inf`), and the bridge `elog : ℚ → WithBot ℝ` (0 ↦ ⊥) recovers the
  log-space reading exactly, since `log` is a strictly monotone isomorphism
  from (0,∞) onto ℝ sending products to sums.
* `str.strip()` / `str.lower()` are modelled by `pyStrip` / `pyLower`
  (ASCII lowering; Python's whitespace set), implemented structurally over
  the character list of the string.
* Raising an exception is modelled by `Except`; for the in-place annotation
  of turns the post-call state of the mutated list is returned alongside the
  optional exception.
-/
import Mathlib

namespace VP2

/-! ## A model of the Python values handled by the emotion layer -/

/-- Model of a Python runtime value as consumed by `normalize_emotion` and
the sequence-extraction helpers: `None`, strings, numbers (idealized as
rationals), lists and string-keyed dicts. -/
inductive PyVal where
  | none
  | str (s : String)
  | num (q : ℚ)
  | list (xs : List PyVal)
  | dict (kvs : List (String × PyVal))

/-- Test for the Python value `None`. -/
def PyVal.isNone : PyVal → Bool
  | .none => true
  | _ => false

/-- First-match lookup in a dict modelled as an association list
(Python dict literals in the sources have unique keys, so first-match
lookup agrees with Python dict lookup). -/
def lookupKV : List (String × PyVal) → String → Option PyVal
  | [], _ => Option.none
  | (k, v) :: rest, key => if k = key then some v else lookupKV rest key

/-- Model of Python `d.get(k)`: the stored value, or `None` when the key is
absent. -/
def dictGet (kvs : List (String × PyVal)) (key : String) : PyVal :=
  (lookupKV kvs key).getD PyVal.none

/-- Combined test `"k" in d and d["k"] is not None` (equivalently
`d.get(k) is not None`): returns the value only when the key is present with
a non-`None` value. -/
def getNN (kvs : List (String × PyVal)) (key : String) : Option PyVal :=
  match lookupKV kvs key with
  | some v => if v.isNone then Option.none else some v
  | Option.none => Option.none

theorem lookupKV_sizeOf (kvs : List (String × PyVal)) (key : String) (v : PyVal)
    (h : lookupKV kvs key = some v) : sizeOf v < 1 + sizeOf kvs := by
  induction kvs with
  | nil => simp [lookupKV] at h
  | cons a rest ih =>
    rw [lookupKV] at h
    split at h
    · cases h; cases a; simp; omega
    · have := ih h; cases a; simp_all; omega

theorem getNN_sizeOf (kvs : List (String × PyVal)) (key : String) (v : PyVal)
    (h : getNN kvs key = some v) : sizeOf v < sizeOf (PyVal.dict kvs) := by
  unfold getNN at h
  rcases hl : lookupKV kvs key with _ | w <;> rw [hl] at h
  · simp at h
  · have hsw := lookupKV_sizeOf kvs key w hl
    by_cases hn : w.isNone = true <;> simp [hn] at h
    subst h; simp; omega

/-! ## Python string primitives -/

/-- The characters Python `str.strip()` removes (the standard str whitespace
set). -/
def pyIsSpace (c : Char) : Bool :=
  c = ' ' ∨ c = '\t' ∨ c = '\n' ∨ c = '\r' ∨ c = '\x0b' ∨ c = '\x0c'

/-- Model of Python `s.strip()`. -/
def pyStrip (s : String) : String :=
  ⟨((s.data.dropWhile pyIsSpace).reverse.dropWhile pyIsSpace).reverse⟩

/-- ASCII single-character lowering as performed by Python `str.lower()` on
the label strings that occur in the sources (the Korean labels have no
case). -/
def pyLowerChar (c : Char) : Char :=
  if 'A' ≤ c ∧ c ≤ 'Z' then Char.ofNat (c.toNat + 32) else c

/-- Model of Python `s.lower()`. -/
def pyLower (s : String) : String := ⟨s.data.map pyLowerChar⟩

/-- Model of Python `str(v)` as applied by the sources.  Strings pass
through unchanged (the only case the label data exercises); the remaining
renderings are schematic — none of them collides with a canonical emotion or
an alias key, which is all the normalization logic observes about them. -/
def pyStr : PyVal → String
  | .str s => s
  | .none => "None"
  | .num q => toString q
  | .list _ => "<list>"
  | .dict _ => "<dict>"

/-! ## Fixed tables of `emoti_shing_hmm.py` -/

/-- Hidden state names, source line 18. -/
def STATES : List String := ["V1", "V2", "V3"]

/-- Observation symbol names, source line 19. -/
def EMOTIONS : List String := ["neutral", "anger", "fear", "excitement"]

/-- Alias table `DEFAULT_EMOTION_ALIASES`, source lines 78-117, in source
order. -/
def DEFAULT_EMOTION_ALIASES : List (String × String) :=
  [ ("n", "neutral"), ("f", "fear"), ("a", "anger"), ("e", "excitement"),
    ("neutral", "neutral"), ("중립", "neutral"), ("중립감", "neutral"),
    ("무감정", "neutral"), ("평온", "neutral"),
    ("anger", "anger"), ("angry", "anger"), ("분노", "anger"),
    ("화남", "anger"), ("짜증", "anger"), ("혐오", "anger"),
    ("fear", "fear"), ("afraid", "fear"), ("공포", "fear"),
    ("두려움", "fear"), ("불안", "fear"),
    ("excitement", "excitement"), ("excited", "excitement"),
    ("흥분", "excitement"), ("기대", "excitement"), ("설렘", "excitement"),
    ("기쁨", "excitement"), ("행복", "excitement"),
    ("슬픔", "neutral"), ("놀라움", "excitement") ]

/-- First-match lookup in a string-valued alias table. -/
def lookupStr : List (String × String) → String → Option String
  | [], _ => Option.none
  | (k, v) :: rest, key => if k = key then some v else lookupStr rest key

/-- Model of the Python idiom `aliases or DEFAULT_EMOTION_ALIASES` on
source line 180: `None` and the empty table are both replaced by the
default table. -/
def resolveAliases : Option (List (String × String)) → List (String × String)
  | some a => if a.isEmpty then DEFAULT_EMOTION_ALIASES else a
  | Option.none => DEFAULT_EMOTION_ALIASES

/-! ## probs4 fallback (`_map_probs4_to_code`, source lines 120-134) -/

/-- Model of Python `float(v)` as used on probs4 entries: numbers convert,
anything else raises (the raise is caught by `_map_probs4_to_code` and
becomes `None`). -/
def toRat? : PyVal → Option ℚ
  | .num q => some q
  | _ => Option.none

/-- One step of Python `max(..., key=...)`: the candidate replaces the
current best only when its key is strictly greater, so the first maximum
encountered wins. -/
def pyMax2 (acc p : Nat × ℚ) : Nat × ℚ :=
  if p.2 > acc.2 then p else acc

/-- Index computed by `max(range(4), key=lambda i: float(probs4[i]))`:
left-to-right scan keeping the first maximum. -/
def pyMaxIdx4 (q0 q1 q2 q3 : ℚ) : Nat :=
  (pyMax2 (pyMax2 (pyMax2 (0, q0) (1, q1)) (2, q2)) (3, q3)).1

/-- Embedding of `_map_probs4_to_code` (source lines 120-134): requires a
4-element list of numbers and returns the code of the first-maximal entry
under the column ordering `["N", "F", "A", "E"]`; any failure (wrong shape,
non-numeric entry) is swallowed into `None` by the source's `except`. -/
def _map_probs4_to_code (probs4 : PyVal) : Option String :=
  match probs4 with
  | .list xs =>
    if xs.length = 4 then
      match toRat? (xs.getD 0 .none), toRat? (xs.getD 1 .none),
            toRat? (xs.getD 2 .none), toRat? (xs.getD 3 .none) with
      | some q0, some q1, some q2, some q3 =>
        some (["N", "F", "A", "E"].getD (pyMaxIdx4 q0 q1 q2 q3) "")
      | _, _, _, _ => Option.none
    else Option.none
  | _ => Option.none

/-! ## `normalize_emotion` (source lines 137-201) -/

/-- The non-dict arm of `normalize_emotion` (source lines 178-201): strip
and lower the printed label, accept it if canonical, otherwise consult the
alias table first under the lowered form and then under the raw stripped
form; an alias mapping outside the canonical four fails loudly. -/
def normalize_emotion_str (raw : String)
    (aliases : Option (List (String × String))) : Except String String :=
  let s := pyLower (pyStrip raw)
  let al := resolveAliases aliases
  if EMOTIONS.contains s then .ok s
  else
    match lookupStr al s with
    | some m0 =>
      let m := pyLower (pyStrip m0)
      if EMOTIONS.contains m then .ok m
      else .error ("Alias mapped to invalid emotion: " ++ m)
    | Option.none =>
      match lookupStr al (pyStrip raw) with
      | some m0 =>
        let m := pyLower (pyStrip m0)
        if EMOTIONS.contains m then .ok m
        else .error ("Alias mapped to invalid emotion: " ++ m)
      | Option.none => .error ("Unsupported emotion label: " ++ raw)

/-- The test `isinstance(pred8, str) and pred8.strip() == "놀라움"` on
source line 161. -/
def isSurprise : PyVal → Bool
  | .str s => pyStrip s == "놀라움"
  | _ => false

/-- Embedding of `normalize_emotion` (source lines 137-201).  Structured
(dict) inputs are resolved in source order: a present non-`None` `pred4`
first; then the surprise special case on `pred8` (preferring a present
non-`None` `surprise_to`); then a valid `probs4` via
`_map_probs4_to_code`; then any remaining non-`None` `pred8`; otherwise the
call fails.  Non-dict inputs go through the string arm. -/
def normalize_emotion (label : PyVal)
    (aliases : Option (List (String × String))) : Except String String :=
  match label with
  | PyVal.none => .error "Emotion label is None"
  | PyVal.dict kvs =>
    match h4 : getNN kvs "pred4" with
    | some v4 => normalize_emotion v4 aliases
    | Option.none =>
      match h8 : getNN kvs "pred8" with
      | some p8 =>
        if isSurprise p8 then
          match hs : getNN kvs "surprise_to" with
          | some st => normalize_emotion st aliases
          | Option.none => normalize_emotion p8 aliases
        else
          match _map_probs4_to_code (dictGet kvs "probs4") with
          | some code => normalize_emotion_str code aliases
          | Option.none => normalize_emotion p8 aliases
      | Option.none =>
        match _map_probs4_to_code (dictGet kvs "probs4") with
        | some code => normalize_emotion_str code aliases
        | Option.none => .error "Unsupported emotion dict (no usable keys)"
  | v => normalize_emotion_str (pyStr v) aliases
termination_by sizeOf label
decreasing_by
  · exact getNN_sizeOf kvs "pred4" v4 h4
  · exact getNN_sizeOf kvs "surprise_to" st hs
  · exact getNN_sizeOf kvs "pred8" p8 h8
  · exact getNN_sizeOf kvs "pred8" p8 h8

instance : DecidableEq (Except String String) := fun a b =>
  match a, b with
  | .ok x, .ok y =>
    if h : x = y then isTrue (by rw [h]) else isFalse (by simp [h])
  | .error x, .error y =>
    if h : x = y then isTrue (by rw [h]) else isFalse (by simp [h])
  | .ok _, .error _ => isFalse (by simp)
  | .error _, .ok _ => isFalse (by simp)

/-! ### Case equations for `normalize_emotion`

One equation per arm of the source's dict-dispatch (lines 150-176) and for
the string arm (lines 178-201); together they spell out the exact field
consultation order of the code. -/

theorem normalize_emotion_none (al : Option (List (String × String))) :
    normalize_emotion PyVal.none al = .error "Emotion label is None" := by
  rw [normalize_emotion]

theorem normalize_emotion_str_case (s : String)
    (al : Option (List (String × String))) :
    normalize_emotion (PyVal.str s) al = normalize_emotion_str s al := by
  rw [normalize_emotion]
  · rfl
  · intro h; cases h
  · intro kvs h; cases h

theorem normalize_emotion_dict_pred4 {kvs : List (String × PyVal)}
    {v4 : PyVal} (al : Option (List (String × String)))
    (h4 : getNN kvs "pred4" = some v4) :
    normalize_emotion (PyVal.dict kvs) al = normalize_emotion v4 al := by
  rw [normalize_emotion]
  split
  · next v4' heq => rw [h4] at heq; injection heq with e; rw [e]
  · next heq => rw [h4] at heq; cases heq

theorem normalize_emotion_dict_surprise_to {kvs : List (String × PyVal)}
    {p8 st : PyVal} (al : Option (List (String × String)))
    (h4 : getNN kvs "pred4" = Option.none)
    (h8 : getNN kvs "pred8" = some p8) (hsur : isSurprise p8 = true)
    (hst : getNN kvs "surprise_to" = some st) :
    normalize_emotion (PyVal.dict kvs) al = normalize_emotion st al := by
  rw [normalize_emotion]
  split
  · next v4' heq => rw [h4] at heq; cases heq
  · next =>
    split
    · next p8' heq8 =>
      rw [h8] at heq8; injection heq8 with e; subst e
      rw [if_pos (by rw [hsur])]
      split
      · next st' heqs => rw [hst] at heqs; injection heqs with e; rw [e]
      · next heqs => rw [hst] at heqs; cases heqs
    · next heq8 => rw [h8] at heq8; cases heq8

theorem normalize_emotion_dict_surprise_p8 {kvs : List (String × PyVal)}
    {p8 : PyVal} (al : Option (List (String × String)))
    (h4 : getNN kvs "pred4" = Option.none)
    (h8 : getNN kvs "pred8" = some p8) (hsur : isSurprise p8 = true)
    (hst : getNN kvs "surprise_to" = Option.none) :
    normalize_emotion (PyVal.dict kvs) al = normalize_emotion p8 al := by
  rw [normalize_emotion]
  split
  · next v4' heq => rw [h4] at heq; cases heq
  · next =>
    split
    · next p8' heq8 =>
      rw [h8] at heq8; injection heq8 with e; subst e
      rw [if_pos (by rw [hsur])]
      split
      · next st' heqs => rw [hst] at heqs; cases heqs
      · next => rfl
    · next heq8 => rw [h8] at heq8; cases heq8

theorem normalize_emotion_dict_probs4 {kvs : List (String × PyVal)}
    {p8 : PyVal} {code : String} (al : Option (List (String × String)))
    (h4 : getNN kvs "pred4" = Option.none)
    (h8 : getNN kvs "pred8" = some p8) (hsur : isSurprise p8 = false)
    (hc : _map_probs4_to_code (dictGet kvs "probs4") = some code) :
    normalize_emotion (PyVal.dict kvs) al = normalize_emotion_str code al := by
  rw [normalize_emotion]
  split
  · next v4' heq => rw [h4] at heq; cases heq
  · next =>
    split
    · next p8' heq8 =>
      rw [h8] at heq8; injection heq8 with e; subst e
      rw [if_neg (by rw [hsur]; simp)]
      split
      · next c hcc => rw [hc] at hcc; injection hcc with e; rw [e]
      · next hcc => rw [hc] at hcc; cases hcc
    · next heq8 => rw [h8] at heq8; cases heq8

theorem normalize_emotion_dict_p8 {kvs : List (String × PyVal)}
    {p8 : PyVal} (al : Option (List (String × String)))
    (h4 : getNN kvs "pred4" = Option.none)
    (h8 : getNN kvs "pred8" = some p8) (hsur : isSurprise p8 = false)
    (hc : _map_probs4_to_code (dictGet kvs "probs4") = Option.none) :
    normalize_emotion (PyVal.dict kvs) al = normalize_emotion p8 al := by
  rw [normalize_emotion]
  split
  · next v4' heq => rw [h4] at heq; cases heq
  · next =>
    split
    · next p8' heq8 =>
      rw [h8] at heq8; injection heq8 with e; subst e
      rw [if_neg (by rw [hsur]; simp)]
      split
      · next c hcc => rw [hc] at hcc; cases hcc
      · next => rfl
    · next heq8 => rw [h8] at heq8; cases heq8

theorem normalize_emotion_dict_probs4_only {kvs : List (String × PyVal)}
    {code : String} (al : Option (List (String × String)))
    (h4 : getNN kvs "pred4" = Option.none)
    (h8 : getNN kvs "pred8" = Option.none)
    (hc : _map_probs4_to_code (dictGet kvs "probs4") = some code) :
    normalize_emotion (PyVal.dict kvs) al = normalize_emotion_str code al := by
  rw [normalize_emotion]
  split
  · next v4' heq => rw [h4] at heq; cases heq
  · next =>
    split
    · next p8' heq8 => rw [h8] at heq8; cases heq8
    · next =>
      split
      · next c hcc => rw [hc] at hcc; injection hcc with e; rw [e]
      · next hcc => rw [hc] at hcc; cases hcc

theorem normalize_emotion_dict_fail {kvs : List (String × PyVal)}
    (al : Option (List (String × String)))
    (h4 : getNN kvs "pred4" = Option.none)
    (h8 : getNN kvs "pred8" = Option.none)
    (hc : _map_probs4_to_code (dictGet kvs "probs4") = Option.none) :
    normalize_emotion (PyVal.dict kvs) al
      = .error "Unsupported emotion dict (no usable keys)" := by
  rw [normalize_emotion]
  split
  · next v4' heq => rw [h4] at heq; cases heq
  · next =>
    split
    · next p8' heq8 => rw [h8] at heq8; cases heq8
    · next =>
      split
      · next c hcc => rw [hc] at hcc; cases hcc
      · next => rfl

/-! ## Fixed HMM parameters (source lines 27-64) -/

/-- Raw transition table `_A_RAW` (Table 4), source lines 27-31. -/
def _A_RAW : Fin 3 → Fin 3 → ℚ :=
  ![![0.22, 0.44, 0.33], ![0.22, 0.33, 0.44], ![0.22, 0.33, 0.44]]

/-- Row-normalized transition matrix `A` (source lines 49-64): each raw row
divided once by its sum (the source's positivity guard never fires on the
fixed table, whose row sums are 0.99). -/
def A (i j : Fin 3) : ℚ :=
  _A_RAW i j / (_A_RAW i 0 + _A_RAW i 1 + _A_RAW i 2)

/-- Emission matrix `_B` (Table 5, reordered to the storage order
neutral, anger, fear, excitement), source lines 39-43. -/
def _B : Fin 3 → Fin 4 → ℚ :=
  ![![0.24, 0.28, 0.16, 0.32],
    ![0.24, 0.28, 0.16, 0.32],
    ![0.31, 0.23, 0.15, 0.31]]

/-- Initial distribution `_PI` (Eq. 33), source line 46. -/
def _PI : Fin 3 → ℚ := ![1, 0, 0]

/-- Model of the `EMO_TO_IDX` dict built on source line 22 by enumerating
`EMOTIONS`. -/
def emoIdx? (s : String) : Option (Fin 4) :=
  if s = "neutral" then some 0
  else if s = "anger" then some 1
  else if s = "fear" then some 2
  else if s = "excitement" then some 3
  else Option.none

/-! ## Viterbi decoding (source lines 204-278)

The source works in log space with `float("-inf")` for probability 0; the
embedding carries the same dynamic program in probability space over `ℚ`,
where `-inf` is represented by 0, sums of logs by products, and the same
strict comparisons decide every branch (see the header note and `elog`
below). -/

/-- One step of the inner arg-max loop of `viterbi_decode` (source lines
244-250): a strictly greater value replaces the current best, so the
lowest-indexed maximum wins. -/
def pyMaxF (acc p : Fin 3 × ℚ) : Fin 3 × ℚ :=
  if p.2 > acc.2 then p else acc

/-- The full three-iteration arg-max scan.  The source seeds the loop with
`(best_i, best_val) = (0, -inf)`; its `i = 0` iteration therefore always
ends in `(0, f 0)` (if `f 0` is `-inf` the comparison fails and the
accumulator keeps index 0 with `-inf = f 0` anyway), so the scan is seeded
here directly with `(0, f 0)`.  Python's `max(range(N), key=f)` on source
line 254 performs the identical first-maximum-wins scan. -/
def best3 (f : Fin 3 → ℚ) : Fin 3 × ℚ :=
  pyMaxF (pyMaxF (0, f 0) (1, f 1)) (2, f 2)

/-- Observation index at time `t` (`obs_idx[t]`; the default is never
reached at valid indices). -/
def obsAt (os : List (Fin 4)) (t : Nat) : Fin 4 := os.getD t 0

/-- Probability-space Viterbi score `delta[t][j]` (source lines 233-251):
the exponential of the source's log-space `delta`, with 0 for `-inf`. -/
def vDelta (os : List (Fin 4)) : Nat → Fin 3 → ℚ
  | 0 => fun j => _PI j * _B j (obsAt os 0)
  | t + 1 => fun j =>
      (best3 (fun i => vDelta os t i * A i j)).2 * _B j (obsAt os (t + 1))

/-- Maximizing predecessor `psi[t][j]` (source line 252); `psi[0][j] = 0`
(source line 239). -/
def vPsi (os : List (Fin 4)) : Nat → Fin 3 → Fin 3
  | 0 => fun _ => 0
  | t + 1 => fun j => (best3 (fun i => vDelta os t i * A i j)).1

/-- Final state `last = max(range(N), key=lambda j: delta[T-1][j])`
(source line 254). -/
def vLast (os : List (Fin 4)) : Fin 3 :=
  (best3 (fun j => vDelta os (os.length - 1) j)).1

/-- Backtracking loop (source lines 258-261): from time `t` in state `j`
follow `psi` back to time 0; the returned state-index path is in forward
order (the source appends and reverses). -/
def backPath (psi : Nat → Fin 3 → Fin 3) : Nat → Fin 3 → List (Fin 3)
  | 0, j => [j]
  | t + 1, j => backPath psi t (psi (t + 1) j) ++ [j]

/-- Result record of `viterbi_decode` (source lines 204-211).  `pathProb`
is the probability-space value of the source's log-space `logp`
(`logp = elog pathProb`); `state_counts` is the source's count dict as a
function. -/
structure ViterbiResult where
  obs : List String
  states : List String
  final_state : String
  state_counts : String → Nat
  v3_ratio : ℚ
  pathProb : ℚ

/-- Core of `viterbi_decode` after label normalization (source lines
228-278), taking the normalized labels and their index form. -/
def viterbiCore (obs_norm : List String) (os : List (Fin 4)) :
    ViterbiResult :=
  let T := os.length
  let last := vLast os
  let path := backPath (vPsi os) (T - 1) last
  let state_seq := path.map (fun i => STATES.getD i.val "")
  { obs := obs_norm
    states := state_seq
    final_state := state_seq.getLastD ""
    state_counts := fun s => state_seq.count s
    v3_ratio := (state_seq.count "V3" : ℚ) / (T : ℚ)
    pathProb := vDelta os (T - 1) last }

/-- The list comprehension `[normalize_emotion(o, ...) for o in obs_seq]`
(source line 226): the first raised error aborts the call. -/
def mapNorm (aliases : Option (List (String × String))) :
    List PyVal → Except String (List String)
  | [] => .ok []
  | l :: ls => do
      let s ← normalize_emotion l aliases
      let rest ← mapNorm aliases ls
      .ok (s :: rest)

/-- The `EMO_TO_IDX[...]` lookups over the normalized sequence (source
lines 236 and 242); a missing key would raise `KeyError` (made unreachable
by normalization). -/
def mapIdx : List String → Option (List (Fin 4))
  | [] => some []
  | s :: ss => do
      let i ← emoIdx? s
      let rest ← mapIdx ss
      some (i :: rest)

/-- Embedding of `viterbi_decode` (source lines 214-278): reject the empty
sequence, normalize every label, then run the fixed-parameter dynamic
program. -/
def viterbi_decode (obs_seq : List PyVal)
    (emotion_aliases : Option (List (String × String)) := Option.none) :
    Except String ViterbiResult :=
  if obs_seq.isEmpty then
    .error "obs_seq is empty (no emotions to decode)."
  else
    match mapNorm emotion_aliases obs_seq with
    | .error e => .error e
    | .ok obs_norm =>
      match mapIdx obs_norm with
      | some os => .ok (viterbiCore obs_norm os)
      | Option.none => .error "KeyError"

/-! ## Log-space bridge -/

/-- Log-space reading of a probability-space value: the source's
`_safe_log` (lines 67-74) sends `x ≤ 0` to `-inf` and positive `x` to
`log x`; here `-inf` is the bottom of `WithBot ℝ`. -/
noncomputable def elog (q : ℚ) : WithBot ℝ :=
  if q ≤ 0 then ⊥ else ((Real.log q : ℝ) : WithBot ℝ)

theorem elog_of_pos {q : ℚ} (h : 0 < q) :
    elog q = ((Real.log q : ℝ) : WithBot ℝ) := by
  rw [elog, if_neg (not_le.mpr h)]

theorem elog_of_nonpos {q : ℚ} (h : q ≤ 0) : elog q = ⊥ := by
  rw [elog, if_pos h]

theorem elog_mul {a b : ℚ} (ha : 0 ≤ a) (hb : 0 ≤ b) :
    elog (a * b) = elog a + elog b := by
  rcases eq_or_lt_of_le ha with h | h
  · rw [← h, zero_mul, elog_of_nonpos le_rfl, WithBot.bot_add]
  · rcases eq_or_lt_of_le hb with h' | h'
    · rw [← h', mul_zero, elog_of_nonpos le_rfl, WithBot.add_bot]
    · rw [elog_of_pos (mul_pos h h'), elog_of_pos h, elog_of_pos h',
        ← WithBot.coe_add]
      congr 1
      push_cast
      exact Real.log_mul (by exact_mod_cast ne_of_gt h)
        (by exact_mod_cast ne_of_gt h')

theorem elog_lt_elog {a b : ℚ} (ha : 0 ≤ a) (hb : 0 ≤ b) :
    elog a < elog b ↔ a < b := by
  rcases eq_or_lt_of_le hb with h' | h'
  · rw [← h', elog_of_nonpos le_rfl]
    simp [not_lt_bot, not_lt.mpr ha]
  · rw [elog_of_pos h']
    rcases eq_or_lt_of_le ha with h | h
    · rw [← h, elog_of_nonpos le_rfl]
      simp [WithBot.bot_lt_coe, h']
    · rw [elog_of_pos h, WithBot.coe_lt_coe]
      rw [Real.log_lt_log_iff (by exact_mod_cast h) (by exact_mod_cast h')]
      exact_mod_cast Iff.rfl

theorem elog_le_elog {a b : ℚ} (ha : 0 ≤ a) (hb : 0 ≤ b) :
    elog a ≤ elog b ↔ a ≤ b := by
  rw [← not_lt, ← not_lt, not_iff_not]
  exact elog_lt_elog hb ha

theorem elog_max {a b : ℚ} (ha : 0 ≤ a) (hb : 0 ≤ b) :
    elog (max a b) = max (elog a) (elog b) := by
  rcases le_total a b with h | h
  · rw [max_eq_right h, max_eq_right ((elog_le_elog ha hb).mpr h)]
  · rw [max_eq_left h, max_eq_left ((elog_le_elog hb ha).mpr h)]

theorem elog_ne_bot {q : ℚ} (h : 0 < q) : elog q ≠ ⊥ := by
  rw [elog_of_pos h]; exact WithBot.coe_ne_bot

theorem elog_nonpos {q : ℚ} (h : q ≤ 1) : elog q ≤ 0 := by
  rcases le_or_lt q 0 with h0 | h0
  · rw [elog_of_nonpos h0]; exact bot_le
  · rw [elog_of_pos h0]
    have : Real.log q ≤ 0 := Real.log_nonpos (by positivity) (by exact_mod_cast h)
    exact_mod_cast this

/-! ## Fixed-parameter facts -/

theorem A_pos (i j : Fin 3) : 0 < A i j := by
  fin_cases i <;> fin_cases j <;> norm_num [A, _A_RAW]

theorem A_rowsum (i : Fin 3) : A i 0 + A i 1 + A i 2 = 1 := by
  fin_cases i <;> norm_num [A, _A_RAW]

theorem B_pos (j : Fin 3) (o : Fin 4) : 0 < _B j o := by
  fin_cases j <;> fin_cases o <;> norm_num [_B]

theorem B_le_one (j : Fin 3) (o : Fin 4) : _B j o ≤ 1 := by
  fin_cases j <;> fin_cases o <;> norm_num [_B]

theorem PI_nonneg (i : Fin 3) : 0 ≤ _PI i := by
  fin_cases i <;> norm_num [_PI]

/-! ## Properties of the arg-max scan and the Viterbi recursion -/

theorem best3_spec (f : Fin 3 → ℚ) :
    (best3 f).2 = f (best3 f).1 ∧ (∀ i, f i ≤ f (best3 f).1) ∧
      ∀ i, i < (best3 f).1 → f i < f (best3 f).1 := by
  unfold best3 pyMaxF
  dsimp only
  split_ifs with h1 h2 h2 <;>
    refine ⟨rfl, fun i => ?_, fun i hi => ?_⟩ <;>
      fin_cases i <;> simp_all [Fin.lt_def] <;> linarith

theorem best3_snd_max (f : Fin 3 → ℚ) :
    (best3 f).2 = max (max (f 0) (f 1)) (f 2) := by
  unfold best3 pyMaxF
  dsimp only
  split_ifs with h1 h2 h2 <;>
    simp [max_def] <;> split_ifs <;> linarith

theorem vDelta_nonneg (os : List (Fin 4)) (t : Nat) (j : Fin 3) :
    0 ≤ vDelta os t j := by
  induction t generalizing j with
  | zero => exact mul_nonneg (PI_nonneg j) (B_pos j (obsAt os 0)).le
  | succ t ih =>
    rw [vDelta]
    refine mul_nonneg ?_ (B_pos j (obsAt os (t + 1))).le
    rw [(best3_spec _).1]
    exact mul_nonneg (ih _) (A_pos _ j).le

theorem vDelta_zero_zero (os : List (Fin 4)) :
    vDelta os 0 0 = _B 0 (obsAt os 0) := by
  show _PI 0 * _B 0 (obsAt os 0) = _
  norm_num [_PI]

theorem vDelta_zero_rest (os : List (Fin 4)) :
    vDelta os 0 1 = 0 ∧ vDelta os 0 2 = 0 := by
  constructor <;> · show _PI _ * _B _ (obsAt os 0) = 0; norm_num [_PI]

theorem pyMaxF_eq_acc (acc p : Fin 3 × ℚ) (h : ¬ p.2 > acc.2) :
    pyMaxF acc p = acc := by
  unfold pyMaxF; exact if_neg h

/-- When neither later candidate strictly beats the first, the scan keeps
index 0. -/
theorem best3_fst_of (f : Fin 3 → ℚ) (h1 : ¬ f 1 > f 0) (h2 : ¬ f 2 > f 0) :
    (best3 f).1 = 0 := by
  show (pyMaxF (pyMaxF (0, f 0) (1, f 1)) (2, f 2)).1 = 0
  rw [pyMaxF_eq_acc ((0 : Fin 3), f 0) ((1 : Fin 3), f 1) h1]
  rw [pyMaxF_eq_acc ((0 : Fin 3), f 0) ((2 : Fin 3), f 2) h2]

/-- The first transition always selects predecessor `V1`: at time 0 only
state `V1` has positive score (`pi = (1,0,0)` and every emission of `V1`
is positive), and every transition probability is positive. -/
theorem vPsi_one (os : List (Fin 4)) (j : Fin 3) : vPsi os 1 j = 0 := by
  have h0 : 0 < vDelta os 0 0 * A 0 j := by
    rw [vDelta_zero_zero]
    exact mul_pos (B_pos 0 (obsAt os 0)) (A_pos 0 j)
  have h1 : vDelta os 0 1 * A 1 j = 0 := by
    rw [(vDelta_zero_rest os).1, zero_mul]
  have h2 : vDelta os 0 2 * A 2 j = 0 := by
    rw [(vDelta_zero_rest os).2, zero_mul]
  show (best3 (fun i => vDelta os 0 i * A i j)).1 = 0
  exact best3_fst_of _ (by rw [h1]; exact not_lt.mpr h0.le)
    (by rw [h2]; exact not_lt.mpr h0.le)

/-- With a single observation, the selected final state is `V1`. -/
theorem vLast_single (os : List (Fin 4)) (hlen : os.length = 1) :
    vLast os = 0 := by
  have h0 : 0 < vDelta os 0 0 := by
    rw [vDelta_zero_zero]; exact B_pos 0 (obsAt os 0)
  unfold vLast
  rw [hlen]
  show (best3 (fun j => vDelta os 0 j)).1 = 0
  exact best3_fst_of _
    (by rw [(vDelta_zero_rest os).1]; exact not_lt.mpr h0.le)
    (by rw [(vDelta_zero_rest os).2]; exact not_lt.mpr h0.le)

theorem backPath_length (psi : Nat → Fin 3 → Fin 3) (t : Nat) (j : Fin 3) :
    (backPath psi t j).length = t + 1 := by
  induction t generalizing j with
  | zero => rfl
  | succ t ih => rw [backPath, List.length_append, ih]; rfl

theorem backPath_ne_nil (psi : Nat → Fin 3 → Fin 3) (t : Nat) (j : Fin 3) :
    backPath psi t j ≠ [] := by
  intro h
  have := backPath_length psi t j
  rw [h] at this
  simp at this

theorem backPath_head (psi : Nat → Fin 3 → Fin 3)
    (hpsi : ∀ j, psi 1 j = 0) (t : Nat) (ht : 1 ≤ t) (j : Fin 3) :
    (backPath psi t j).head? = some 0 := by
  induction t generalizing j with
  | zero => omega
  | succ t ih =>
    rw [backPath, List.head?_append_of_ne_nil _ (backPath_ne_nil psi t _)]
    rcases Nat.eq_zero_or_pos t with h0 | hpos
    · subst h0
      rw [show backPath psi 0 (psi 1 j) = [psi 1 j] from rfl]
      rw [hpsi j]
      rfl
    · exact ih hpos _

theorem backPath_getLast (psi : Nat → Fin 3 → Fin 3) (t : Nat) (j : Fin 3) :
    (backPath psi t j).getLast? = some j := by
  cases t with
  | zero => rfl
  | succ t => rw [backPath, List.getLast?_append_of_ne_nil _ (by simp)]; rfl

/-- Counting over a path of state indices: every element renders to one of
the three state names, so the three counts sum to the length. -/
theorem count_states_sum (l : List (Fin 3)) :
    ((l.map (fun i => STATES.getD i.val "")).count "V1"
      + (l.map (fun i => STATES.getD i.val "")).count "V2")
      + (l.map (fun i => STATES.getD i.val "")).count "V3" = l.length := by
  induction l with
  | nil => rfl
  | cons a l ih =>
    fin_cases a <;>
      simp only [List.map_cons, List.count_cons, List.length_cons, ← ih,
        STATES] <;> simp <;> omega

/-- The log-space reading of the probability-space recursion step: the
source's recurrence over `WithBot ℝ`. -/
theorem vDelta_succ_elog (os : List (Fin 4)) (t : Nat) (j : Fin 3) :
    elog (vDelta os (t + 1) j)
      = max (max (elog (vDelta os t 0) + elog (A 0 j))
            (elog (vDelta os t 1) + elog (A 1 j)))
            (elog (vDelta os t 2) + elog (A 2 j))
        + elog (_B j (obsAt os (t + 1))) := by
  have hf : ∀ i : Fin 3, 0 ≤ vDelta os t i * A i j :=
    fun i => mul_nonneg (vDelta_nonneg os t i) (A_pos i j).le
  have hb2 : 0 ≤ (best3 fun i => vDelta os t i * A i j).2 := by
    rw [(best3_spec _).1]; exact hf _
  rw [vDelta, elog_mul hb2 (B_pos j _).le, best3_snd_max]
  congr 1
  have hm : (0 : ℚ) ≤ max (vDelta os t 0 * A 0 j) (vDelta os t 1 * A 1 j) :=
    le_max_of_le_left (hf 0)
  rw [elog_max hm (hf 2), elog_max (hf 0) (hf 1),
    elog_mul (vDelta_nonneg os t 0) (A_pos 0 j).le,
    elog_mul (vDelta_nonneg os t 1) (A_pos 1 j).le,
    elog_mul (vDelta_nonneg os t 2) (A_pos 2 j).le]

/-- The recorded predecessor is the first-maximal state of the log-space
scores `delta[t][i] + log A[i][j]`. -/
theorem vPsi_succ_spec (os : List (Fin 4)) (t : Nat) (j : Fin 3) :
    (∀ i, elog (vDelta os t i) + elog (A i j)
        ≤ elog (vDelta os t (vPsi os (t + 1) j))
          + elog (A (vPsi os (t + 1) j) j)) ∧
    ∀ i, i < vPsi os (t + 1) j →
      elog (vDelta os t i) + elog (A i j)
        < elog (vDelta os t (vPsi os (t + 1) j))
          + elog (A (vPsi os (t + 1) j) j) := by
  have hf : ∀ i : Fin 3, 0 ≤ vDelta os t i * A i j :=
    fun i => mul_nonneg (vDelta_nonneg os t i) (A_pos i j).le
  have hspec := best3_spec (fun i => vDelta os t i * A i j)
  have hp : vPsi os (t + 1) j = (best3 fun i => vDelta os t i * A i j).1 := rfl
  constructor
  · intro i
    rw [← elog_mul (vDelta_nonneg os t i) (A_pos i j).le,
      ← elog_mul (vDelta_nonneg os t _) (A_pos _ j).le, hp]
    exact (elog_le_elog (hf i) (hf _)).mpr (hspec.2.1 i)
  · intro i hi
    rw [← elog_mul (vDelta_nonneg os t i) (A_pos i j).le,
      ← elog_mul (vDelta_nonneg os t _) (A_pos _ j).le, hp]
    exact (elog_lt_elog (hf i) (hf _)).mpr (hspec.2.2 i (hp ▸ hi))

/-- The selected final state is the first-maximal state of the last
log-space score column. -/
theorem vLast_spec (os : List (Fin 4)) :
    (∀ j, elog (vDelta os (os.length - 1) j)
        ≤ elog (vDelta os (os.length - 1) (vLast os))) ∧
    ∀ j, j < vLast os →
      elog (vDelta os (os.length - 1) j)
        < elog (vDelta os (os.length - 1) (vLast os)) := by
  have hspec := best3_spec (fun j => vDelta os (os.length - 1) j)
  have hp : vLast os = (best3 fun j => vDelta os (os.length - 1) j).1 := rfl
  constructor
  · intro j
    rw [hp]
    exact (elog_le_elog (vDelta_nonneg os _ j) (vDelta_nonneg os _ _)).mpr
      (hspec.2.1 j)
  · intro j hj
    rw [hp]
    exact (elog_lt_elog (vDelta_nonneg os _ j) (vDelta_nonneg os _ _)).mpr
      (hspec.2.2 j (hp ▸ hj))

/-! ## Decomposing `viterbi_decode` -/

theorem mapNorm_length (al : Option (List (String × String)))
    (ls : List PyVal) (ns : List String) (h : mapNorm al ls = .ok ns) :
    ns.length = ls.length := by
  induction ls generalizing ns with
  | nil => rw [mapNorm] at h; cases h; rfl
  | cons l ls ih =>
    rw [mapNorm] at h
    rcases hn : normalize_emotion l al with e | s <;> rw [hn] at h
    · cases h
    · rcases hr : mapNorm al ls with e | rest <;> rw [hr] at h
      · cases h
      · cases h
        rw [List.length_cons, List.length_cons, ih rest hr]

theorem mapIdx_length (ns : List String) (os : List (Fin 4))
    (h : mapIdx ns = some os) : os.length = ns.length := by
  induction ns generalizing os with
  | nil => rw [mapIdx] at h; cases h; rfl
  | cons s ss ih =>
    rw [mapIdx] at h
    rcases hn : emoIdx? s with _ | i <;> rw [hn] at h
    · cases h
    · rcases hr : mapIdx ss with _ | rest <;> rw [hr] at h
      · cases h
      · cases h
        rw [List.length_cons, List.length_cons, ih rest hr]

theorem viterbi_decode_ok {labels : List PyVal}
    {al : Option (List (String × String))} {r : ViterbiResult}
    (h : viterbi_decode labels al = .ok r) :
    ∃ ns os, mapNorm al labels = .ok ns ∧ mapIdx ns = some os ∧
      r = viterbiCore ns os ∧ os.length = labels.length ∧ labels ≠ [] := by
  unfold viterbi_decode at h
  rcases labels with _ | ⟨l, ls⟩
  · simp at h
  · rw [if_neg (by simp)] at h
    rcases hn : mapNorm al (l :: ls) with e | ns <;> rw [hn] at h
    · exact Except.noConfusion (show (Except.error e : Except String ViterbiResult) = .ok r from h)
    · have h2 : (match mapIdx ns with
          | some os => Except.ok (viterbiCore ns os)
          | Option.none => Except.error "KeyError") = Except.ok r := h
      rcases hi : mapIdx ns with _ | os <;> rw [hi] at h2
      · exact Except.noConfusion h2
      · have h4 : Except.ok (viterbiCore ns os) = Except.ok r := h2
        injection h4 with h5
        refine ⟨ns, os, rfl, hi, h5.symm, ?_, by simp⟩
        rw [mapIdx_length ns os hi, mapNorm_length al _ ns hn]

/-- The head of the decoded path is always state index 0 (`V1`). -/
theorem viterbiCore_head (ns : List String) (os : List (Fin 4))
    (hne : os ≠ []) :
    (viterbiCore ns os).states.head? = some "V1" := by
  have hpath : (viterbiCore ns os).states
      = (backPath (vPsi os) (os.length - 1) (vLast os)).map
          (fun i => STATES.getD i.val "") := rfl
  rw [hpath, List.head?_map]
  rcases Nat.eq_zero_or_pos (os.length - 1) with h0 | hpos
  · have hlen : os.length = 1 := by
      rcases os with _ | ⟨a, rest⟩
      · exact absurd rfl hne
      · rw [List.length_cons] at h0 ⊢
        omega
    rw [h0, vLast_single os hlen]
    rfl
  · rw [backPath_head (vPsi os) (vPsi_one os) _ hpos _]
    rfl

/-! ## Claims C2 and C3 -/

/-- C2: for every non-empty canonical observation sequence, the Viterbi
table satisfies the log-space recurrence
`delta[t][j] = max_i(delta[t-1][i] + log A[i][j]) + log B[j][obs[t]]`
at every interior timestep (zero probability read as `-inf` through
`elog`), the recorded predecessor `psi[t][j]` and the selected final state
are the lowest-indexed maximizers of their score columns (every other index
scores no higher, and all smaller indices score strictly lower), and the
returned state path is recovered by backtracking through `psi` from that
final state. -/
theorem claim_C2 (os : List (Fin 4)) (hne : os ≠ []) :
    (∀ t j, 1 ≤ t → t < os.length →
      elog (vDelta os t j)
        = max (max (elog (vDelta os (t - 1) 0) + elog (A 0 j))
              (elog (vDelta os (t - 1) 1) + elog (A 1 j)))
              (elog (vDelta os (t - 1) 2) + elog (A 2 j))
          + elog (_B j (obsAt os t))) ∧
    (∀ t j, 1 ≤ t → t < os.length →
      ((∀ i, elog (vDelta os (t - 1) i) + elog (A i j)
          ≤ elog (vDelta os (t - 1) (vPsi os t j))
            + elog (A (vPsi os t j) j)) ∧
        ∀ i, i < vPsi os t j →
          elog (vDelta os (t - 1) i) + elog (A i j)
            < elog (vDelta os (t - 1) (vPsi os t j))
              + elog (A (vPsi os t j) j))) ∧
    ((∀ j, elog (vDelta os (os.length - 1) j)
        ≤ elog (vDelta os (os.length - 1) (vLast os))) ∧
      ∀ j, j < vLast os →
        elog (vDelta os (os.length - 1) j)
          < elog (vDelta os (os.length - 1) (vLast os))) ∧
    ∀ ns, (viterbiCore ns os).states
      = (backPath (vPsi os) (os.length - 1) (vLast os)).map
          (fun i => STATES.getD i.val "") := by
  refine ⟨fun t j ht _ => ?_, fun t j ht _ => ?_, vLast_spec os,
    fun ns => rfl⟩
  · obtain ⟨t', rfl⟩ : ∃ t', t = t' + 1 := ⟨t - 1, by omega⟩
    simpa using vDelta_succ_elog os t' j
  · obtain ⟨t', rfl⟩ : ∃ t', t = t' + 1 := ⟨t - 1, by omega⟩
    simpa using vPsi_succ_spec os t' j

theorem claim_C2_witness :
    (viterbiCore ["anger"] [1]).states
      = (backPath (vPsi [1]) 0 (vLast [1])).map
          (fun i => STATES.getD i.val "") := by
  have h := (claim_C2 [1] (by decide)).2.2.2 ["anger"]
  simpa using h

/-- C3: `viterbi_decode` rejects the empty sequence with an error before
any computation; every successful call returns a state path whose length is
the input length, whose per-state counts sum to that length, whose
`v3_ratio` equals the `V3` count over the length, and whose first state is
`V1`; on the single observation `"neutral"` the returned path is exactly
`["V1"]`. -/
theorem claim_C3 :
    viterbi_decode [] Option.none
        = .error "obs_seq is empty (no emotions to decode)." ∧
    (∀ labels al r, viterbi_decode labels al = .ok r →
      r.states.length = labels.length ∧
      r.state_counts "V1" + r.state_counts "V2" + r.state_counts "V3"
          = labels.length ∧
      r.v3_ratio = (r.state_counts "V3" : ℚ) / (labels.length : ℚ) ∧
      r.states.head? = some "V1") ∧
    (viterbi_decode [PyVal.str "neutral"] Option.none).toOption.map
        ViterbiResult.states = some ["V1"] := by
  have hmain : ∀ labels al r, viterbi_decode labels al = .ok r →
      r.states.length = labels.length ∧
      r.state_counts "V1" + r.state_counts "V2" + r.state_counts "V3"
          = labels.length ∧
      r.v3_ratio = (r.state_counts "V3" : ℚ) / (labels.length : ℚ) ∧
      r.states.head? = some "V1" := by
    intro labels al r h
    obtain ⟨ns, os, hn, hi, hr, hlen, hnil⟩ := viterbi_decode_ok h
    subst hr
    have hos : os ≠ [] := by
      intro h'
      rw [h'] at hlen
      exact hnil (List.length_eq_zero.mp hlen.symm)
    have hpos : 1 ≤ os.length := List.length_pos.mpr hos
    have hstates : (viterbiCore ns os).states
        = (backPath (vPsi os) (os.length - 1) (vLast os)).map
            (fun i => STATES.getD i.val "") := rfl
    have hslen : (viterbiCore ns os).states.length = os.length := by
      rw [hstates, List.length_map, backPath_length]
      omega
    refine ⟨by rw [hslen, hlen], ?_, ?_, viterbiCore_head ns os hos⟩
    · have hc := count_states_sum (backPath (vPsi os) (os.length - 1)
        (vLast os))
      have hcl : (backPath (vPsi os) (os.length - 1) (vLast os)).length
          = os.length := by rw [backPath_length]; omega
      rw [hcl] at hc
      show ((viterbiCore ns os).states.count "V1"
          + (viterbiCore ns os).states.count "V2")
          + (viterbiCore ns os).states.count "V3" = labels.length
      rw [hstates, hc, hlen]
    · show ((viterbiCore ns os).states.count "V3" : ℚ) / (os.length : ℚ)
          = ((viterbiCore ns os).states.count "V3" : ℚ)
            / (labels.length : ℚ)
      rw [hlen]
  refine ⟨rfl, hmain, ?_⟩
  have hn0 : normalize_emotion (PyVal.str "neutral") Option.none
      = .ok "neutral" := by
    rw [normalize_emotion_str_case]; decide
  have h1 : mapNorm Option.none [PyVal.str "neutral"] = .ok ["neutral"] := by
    rw [mapNorm, hn0]; rfl
  have h2 : viterbi_decode [PyVal.str "neutral"] Option.none
      = .ok (viterbiCore ["neutral"] [0]) := by
    unfold viterbi_decode
    rw [h1]
    rfl
  have h4 := hmain [PyVal.str "neutral"] Option.none _ h2
  rw [h2]
  show some (viterbiCore ["neutral"] [0]).states = some ["V1"]
  have hl1 : (viterbiCore ["neutral"] [0]).states.length = 1 := h4.1
  obtain ⟨a, ha⟩ := List.length_eq_one.mp hl1
  have hh := h4.2.2.2
  rw [ha] at hh ⊢
  cases hh
  rfl

theorem claim_C3_witness :
    (viterbiCore ["fear"] [2]).states.head? = some "V1" ∧
      (viterbiCore ["fear"] [2]).states.length = 1 := by
  have hnf : normalize_emotion (PyVal.str "fear") Option.none
      = .ok "fear" := by
    rw [normalize_emotion_str_case]; decide
  have h1 : mapNorm Option.none [PyVal.str "fear"] = .ok ["fear"] := by
    rw [mapNorm, hnf]; rfl
  have h2 : viterbi_decode [PyVal.str "fear"] Option.none
      = .ok (viterbiCore ["fear"] [2]) := by
    unfold viterbi_decode
    rw [h1]
    rfl
  have h := claim_C3.2.1 [PyVal.str "fear"] Option.none _ h2
  exact ⟨h.2.2.2, h.1⟩

/-! ## Scaled forward-backward (`runner.py`, source lines 13-94)

The engine is stated over explicit parameters `Am`, `Bm`, `pv` (the source
reads the fixed module-level `A`, `B`, `PI`, imported from
`emoti_shing_hmm.py`; `_forward_backward_gamma` below instantiates them).
As with Viterbi, the log-likelihood is carried in probability space: the
source accumulates `loglik -= log(c[t])` over the steps with `c[t] > 0`,
which is `elog` of the product of the factors `c[t]⁻¹` accumulated here. -/

/-- Unnormalized forward mass `alpha[t][j]` before the per-step rescaling
(source lines 30-34 and 45-53); the previous row enters rescaled exactly
when its own mass was positive (source lines 54-60). -/
def fbAlphaPre (Am : Fin 3 → Fin 3 → ℚ) (Bm : Fin 3 → Fin 4 → ℚ)
    (pv : Fin 3 → ℚ) (os : List (Fin 4)) : Nat → Fin 3 → ℚ
  | 0 => fun j => pv j * Bm j (obsAt os 0)
  | t + 1 => fun j =>
      let pre := fbAlphaPre Am Bm pv os t
      let s := pre 0 + pre 1 + pre 2
      let prev : Fin 3 → ℚ := if s ≤ 0 then pre else fun i => pre i / s
      (prev 0 * Am 0 j + prev 1 * Am 1 j + prev 2 * Am 2 j)
        * Bm j (obsAt os (t + 1))

/-- The per-step mass `s` accumulated on source lines 31-34 and 47-53. -/
def fbS (Am : Fin 3 → Fin 3 → ℚ) (Bm : Fin 3 → Fin 4 → ℚ)
    (pv : Fin 3 → ℚ) (os : List (Fin 4)) (t : Nat) : ℚ :=
  fbAlphaPre Am Bm pv os t 0 + fbAlphaPre Am Bm pv os t 1
    + fbAlphaPre Am Bm pv os t 2

/-- The stored forward row `alpha[t]`: rescaled by `c[t] = 1/s` when the
mass is positive (source lines 40-42, 58-60), kept unnormalized otherwise
(source lines 54-56). -/
def fbAlpha (Am : Fin 3 → Fin 3 → ℚ) (Bm : Fin 3 → Fin 4 → ℚ)
    (pv : Fin 3 → ℚ) (os : List (Fin 4)) (t : Nat) : Fin 3 → ℚ :=
  if fbS Am Bm pv os t ≤ 0 then fbAlphaPre Am Bm pv os t
  else fun j => fbAlphaPre Am Bm pv os t j / fbS Am Bm pv os t

/-- Scaling constant `c[t]`: `1/s` for positive mass, else the degenerate
fallback `1` (source lines 54-58; at `t = 0` zero mass never reaches `c`
because the engine returns early, lines 35-38). -/
def fbC (Am : Fin 3 → Fin 3 → ℚ) (Bm : Fin 3 → Fin 4 → ℚ)
    (pv : Fin 3 → ℚ) (os : List (Fin 4)) (t : Nat) : ℚ :=
  if fbS Am Bm pv os t ≤ 0 then 1 else (fbS Am Bm pv os t)⁻¹

/-- Backward pass indexed from the end: `fbBetaRev ... Tm1 k` is
`beta[Tm1 - k]` when the last valid index is `Tm1` (source lines 62-76:
the final row is all ones, and each earlier row folds the next one with
`A`, `B`, the next observation, and the scaling constant `c[t+1]`). -/
def fbBetaRev (Am : Fin 3 → Fin 3 → ℚ) (Bm : Fin 3 → Fin 4 → ℚ)
    (pv : Fin 3 → ℚ) (os : List (Fin 4)) (Tm1 : Nat) : Nat → Fin 3 → ℚ
  | 0 => fun _ => 1
  | k + 1 => fun i =>
      let nxt := fbBetaRev Am Bm pv os Tm1 k
      let ot1 := obsAt os (Tm1 - k)
      (Am i 0 * Bm 0 ot1 * nxt 0 + Am i 1 * Bm 1 ot1 * nxt 1
        + Am i 2 * Bm 2 ot1 * nxt 2) * fbC Am Bm pv os (Tm1 - k)

/-- `beta[t]` for a sequence of length `T`. -/
def fbBeta (Am : Fin 3 → Fin 3 → ℚ) (Bm : Fin 3 → Fin 4 → ℚ)
    (pv : Fin 3 → ℚ) (os : List (Fin 4)) (T t : Nat) : Fin 3 → ℚ :=
  fbBetaRev Am Bm pv os (T - 1) (T - 1 - t)

/-- Posterior row at `t` (source lines 79-87): elementwise `alpha * beta`
renormalized by its sum, or the uniform row when that sum is not
positive. -/
def fbGammaRow (Am : Fin 3 → Fin 3 → ℚ) (Bm : Fin 3 → Fin 4 → ℚ)
    (pv : Fin 3 → ℚ) (os : List (Fin 4)) (T t : Nat) : List ℚ :=
  let g : Fin 3 → ℚ := fun j =>
    fbAlpha Am Bm pv os t j * fbBeta Am Bm pv os T t j
  let s := g 0 + g 1 + g 2
  if s ≤ 0 then [1/3, 1/3, 1/3] else [g 0 / s, g 1 / s, g 2 / s]

/-- The engine `_forward_backward_gamma` over explicit parameters (source
lines 13-94): the posterior table and the probability-space likelihood
whose `elog` is the returned log-likelihood.  The zero-mass early return
on lines 35-38 yields the all-uniform table with likelihood 0
(`elog 0 = ⊥`, the source's `float("-inf")`).  The source indexes
`obs_idx[0]` unconditionally and is never called on an empty sequence
(its callers guard first); the `[]` case below is a total-function filler
excluded by every theorem's hypotheses. -/
def forwardBackwardGamma (Am : Fin 3 → Fin 3 → ℚ) (Bm : Fin 3 → Fin 4 → ℚ)
    (pv : Fin 3 → ℚ) (os : List (Fin 4)) : List (List ℚ) × ℚ :=
  match os with
  | [] => ([], 1)
  | _ :: _ =>
    let T := os.length
    if fbS Am Bm pv os 0 ≤ 0 then
      ((List.range T).map (fun _ => [1/3, 1/3, 1/3]), 0)
    else
      ((List.range T).map (fun t => fbGammaRow Am Bm pv os T t),
        ∏ t ∈ Finset.range T,
          (if 0 < fbC Am Bm pv os t then (fbC Am Bm pv os t)⁻¹ else 1))

/-- The source's `_forward_backward_gamma`, reading the fixed module
parameters. -/
def _forward_backward_gamma (os : List (Fin 4)) : List (List ℚ) × ℚ :=
  forwardBackwardGamma A _B _PI os

/-- Joint probability of a hidden path continuation with the remaining
observations: `prod A[x_{k-1}][x_k] * B[x_k][o_k]` (0 on length
mismatch). -/
def jointAux : Fin 3 → List (Fin 3) → List (Fin 4) → ℚ
  | _, [], [] => 1
  | xp, x :: xs, o :: ot => A xp x * _B x o * jointAux x xs ot
  | _, _, _ => 0

/-- Joint probability of a full state path with the observation sequence
under the fixed `A`, `B`, `PI`. -/
def jointProb : List (Fin 3) → List (Fin 4) → ℚ
  | x :: xs, o :: ot => _PI x * _B x o * jointAux x xs ot
  | _, _ => 0

/-! ## Forward-backward invariants -/

theorem fbAlphaPre_succ (Am : Fin 3 → Fin 3 → ℚ) (Bm : Fin 3 → Fin 4 → ℚ)
    (pv : Fin 3 → ℚ) (os : List (Fin 4)) (t : Nat) (j : Fin 3) :
    fbAlphaPre Am Bm pv os (t + 1) j
      = (fbAlpha Am Bm pv os t 0 * Am 0 j + fbAlpha Am Bm pv os t 1 * Am 1 j
          + fbAlpha Am Bm pv os t 2 * Am 2 j) * Bm j (obsAt os (t + 1)) := rfl

theorem fbAlphaPre_nonneg (os : List (Fin 4)) (t : Nat) (j : Fin 3) :
    0 ≤ fbAlphaPre A _B _PI os t j := by
  induction t generalizing j with
  | zero => exact mul_nonneg (PI_nonneg j) (B_pos j _).le
  | succ t ih =>
    rw [fbAlphaPre_succ]
    have hα : ∀ i, 0 ≤ fbAlpha A _B _PI os t i := by
      intro i
      unfold fbAlpha
      split_ifs with h
      · exact ih i
      · exact div_nonneg (ih i) (not_le.mp h).le
    refine mul_nonneg ?_ (B_pos j _).le
    exact add_nonneg (add_nonneg (mul_nonneg (hα 0) (A_pos 0 j).le)
      (mul_nonneg (hα 1) (A_pos 1 j).le)) (mul_nonneg (hα 2) (A_pos 2 j).le)

theorem fbAlpha_nonneg (os : List (Fin 4)) (t : Nat) (i : Fin 3) :
    0 ≤ fbAlpha A _B _PI os t i := by
  unfold fbAlpha
  split_ifs with h
  · exact fbAlphaPre_nonneg os t i
  · exact div_nonneg (fbAlphaPre_nonneg os t i) (not_le.mp h).le

theorem fbAlpha_sum_one (os : List (Fin 4)) (t : Nat)
    (h : 0 < fbS A _B _PI os t) :
    fbAlpha A _B _PI os t 0 + fbAlpha A _B _PI os t 1
      + fbAlpha A _B _PI os t 2 = 1 := by
  unfold fbAlpha
  rw [if_neg (not_le.mpr h)]
  rw [div_add_div_same, div_add_div_same]
  exact div_self (ne_of_gt h)

theorem fbS_zero (os : List (Fin 4)) :
    fbS A _B _PI os 0 = _B 0 (obsAt os 0) := by
  show _PI 0 * _B 0 (obsAt os 0) + _PI 1 * _B 1 (obsAt os 0)
      + _PI 2 * _B 2 (obsAt os 0) = _
  rw [show _PI 0 = 1 from rfl, show _PI 1 = 0 from rfl,
    show _PI 2 = 0 from rfl]
  ring

/-- Under the fixed parameters every per-step forward mass is positive:
`pi` starts all mass in `V1`, every emission of `V1` is positive, and all
transitions and emissions are positive, so mass can never die out.  (The
degenerate branches of the engine are consequently unreachable with the
fixed tables; claim C5 exercises them over explicit parameters.) -/
theorem fbS_pos (os : List (Fin 4)) (t : Nat) : 0 < fbS A _B _PI os t := by
  induction t with
  | zero => rw [fbS_zero]; exact B_pos 0 _
  | succ t ih =>
    have hα1 := fbAlpha_sum_one os t ih
    have hαnn := fbAlpha_nonneg os t
    have hex : 0 < fbAlpha A _B _PI os t 0 ∨ 0 < fbAlpha A _B _PI os t 1
        ∨ 0 < fbAlpha A _B _PI os t 2 := by
      by_contra hc
      push_neg at hc
      obtain ⟨h0, h1, h2⟩ := hc
      linarith
    have hpre : ∀ j, 0 < fbAlphaPre A _B _PI os (t + 1) j := by
      intro j
      rw [fbAlphaPre_succ]
      refine mul_pos ?_ (B_pos j _)
      have n0 : 0 ≤ fbAlpha A _B _PI os t 0 * A 0 j :=
        mul_nonneg (hαnn 0) (A_pos 0 j).le
      have n1 : 0 ≤ fbAlpha A _B _PI os t 1 * A 1 j :=
        mul_nonneg (hαnn 1) (A_pos 1 j).le
      have n2 : 0 ≤ fbAlpha A _B _PI os t 2 * A 2 j :=
        mul_nonneg (hαnn 2) (A_pos 2 j).le
      rcases hex with h | h | h
      · have := mul_pos h (A_pos 0 j); linarith
      · have := mul_pos h (A_pos 1 j); linarith
      · have := mul_pos h (A_pos 2 j); linarith
    show 0 < fbAlphaPre A _B _PI os (t + 1) 0
        + fbAlphaPre A _B _PI os (t + 1) 1
        + fbAlphaPre A _B _PI os (t + 1) 2
    linarith [hpre 0, hpre 1, hpre 2]

theorem fbS_le_one (os : List (Fin 4)) (t : Nat) :
    fbS A _B _PI os t ≤ 1 := by
  cases t with
  | zero => rw [fbS_zero]; exact B_le_one 0 _
  | succ t =>
    have ih := fbS_pos os t
    have hα1 := fbAlpha_sum_one os t ih
    have hαnn := fbAlpha_nonneg os t
    have key : ∀ j, fbAlphaPre A _B _PI os (t + 1) j
        ≤ fbAlpha A _B _PI os t 0 * A 0 j + fbAlpha A _B _PI os t 1 * A 1 j
          + fbAlpha A _B _PI os t 2 * A 2 j := by
      intro j
      rw [fbAlphaPre_succ]
      have hw : 0 ≤ fbAlpha A _B _PI os t 0 * A 0 j
          + fbAlpha A _B _PI os t 1 * A 1 j
          + fbAlpha A _B _PI os t 2 * A 2 j :=
        add_nonneg (add_nonneg (mul_nonneg (hαnn 0) (A_pos 0 j).le)
          (mul_nonneg (hαnn 1) (A_pos 1 j).le))
          (mul_nonneg (hαnn 2) (A_pos 2 j).le)
      exact mul_le_of_le_one_right hw (B_le_one j _)
    have hsum : (fbAlpha A _B _PI os t 0 * A 0 0
          + fbAlpha A _B _PI os t 1 * A 1 0 + fbAlpha A _B _PI os t 2 * A 2 0)
        + (fbAlpha A _B _PI os t 0 * A 0 1 + fbAlpha A _B _PI os t 1 * A 1 1
          + fbAlpha A _B _PI os t 2 * A 2 1)
        + (fbAlpha A _B _PI os t 0 * A 0 2 + fbAlpha A _B _PI os t 1 * A 1 2
          + fbAlpha A _B _PI os t 2 * A 2 2) = 1 := by
      linear_combination fbAlpha A _B _PI os t 0 * A_rowsum 0
        + fbAlpha A _B _PI os t 1 * A_rowsum 1
        + fbAlpha A _B _PI os t 2 * A_rowsum 2 + hα1
    show fbAlphaPre A _B _PI os (t + 1) 0 + fbAlphaPre A _B _PI os (t + 1) 1
        + fbAlphaPre A _B _PI os (t + 1) 2 ≤ 1
    linarith [key 0, key 1, key 2, hsum]

theorem fbGammaRow_sum (Am : Fin 3 → Fin 3 → ℚ) (Bm : Fin 3 → Fin 4 → ℚ)
    (pv : Fin 3 → ℚ) (os : List (Fin 4)) (T t : Nat) :
    (fbGammaRow Am Bm pv os T t).sum = 1 := by
  unfold fbGammaRow
  dsimp only
  split_ifs with h
  · norm_num
  · have hs := not_le.mp h
    rw [List.sum_cons, List.sum_cons, List.sum_cons, List.sum_nil, add_zero,
      ← add_assoc, div_add_div_same, div_add_div_same]
    exact div_self (ne_of_gt hs)

theorem fbGammaRow_length (Am : Fin 3 → Fin 3 → ℚ) (Bm : Fin 3 → Fin 4 → ℚ)
    (pv : Fin 3 → ℚ) (os : List (Fin 4)) (T t : Nat) :
    (fbGammaRow Am Bm pv os T t).length = 3 := by
  unfold fbGammaRow
  dsimp only
  split_ifs <;> rfl

theorem rangeMap_getD {α : Type} (n : Nat) (f : Nat → α) (t : Nat) (d : α)
    (h : t < n) : ((List.range n).map f).getD t d = f t := by
  rw [List.getD_eq_getElem?_getD, List.getElem?_map, List.getElem?_range h]
  rfl

/-! ## Claims C4 and C5 -/

/-- C4: for every non-empty observation sequence the engine returns a
`T × 3` posterior table whose rows each sum to 1, and a log-likelihood
(`elog` of the probability-space value) that is finite and `≤ 0` whenever
some state path has positive joint probability under the fixed parameters.
(Under the fixed tables the positivity hypothesis is automatic, so the
proof does not need it; it is kept as the claim states it.) -/
theorem claim_C4 (os : List (Fin 4)) (hne : os ≠ []) :
    ((_forward_backward_gamma os).1.length = os.length ∧
      ∀ row ∈ (_forward_backward_gamma os).1, row.length = 3 ∧ row.sum = 1) ∧
    ((∃ xs : List (Fin 3), xs.length = os.length ∧ 0 < jointProb xs os) →
      elog (_forward_backward_gamma os).2 ≠ ⊥ ∧
        elog (_forward_backward_gamma os).2 ≤ 0) := by
  rcases os with _ | ⟨o, rest⟩
  · exact absurd rfl hne
  · have hpos := fbS_pos (o :: rest)
    have hmain : _forward_backward_gamma (o :: rest)
        = ((List.range (o :: rest).length).map
            (fun t => fbGammaRow A _B _PI (o :: rest) (o :: rest).length t),
          ∏ t ∈ Finset.range (o :: rest).length,
            (if 0 < fbC A _B _PI (o :: rest) t
              then (fbC A _B _PI (o :: rest) t)⁻¹ else 1)) := by
      unfold _forward_backward_gamma forwardBackwardGamma
      rw [if_neg (not_le.mpr (hpos 0))]
    constructor
    · rw [hmain]
      refine ⟨by rw [List.length_map, List.length_range], ?_⟩
      intro row hrow
      simp only [List.mem_map] at hrow
      obtain ⟨t, _, rfl⟩ := hrow
      exact ⟨fbGammaRow_length A _B _PI _ _ t, fbGammaRow_sum A _B _PI _ _ t⟩
    · intro _
      rw [hmain]
      have hfac : ∀ t, (if 0 < fbC A _B _PI (o :: rest) t
          then (fbC A _B _PI (o :: rest) t)⁻¹ else 1)
          = fbS A _B _PI (o :: rest) t := by
        intro t
        have h1 : fbC A _B _PI (o :: rest) t
            = (fbS A _B _PI (o :: rest) t)⁻¹ := by
          unfold fbC
          rw [if_neg (not_le.mpr (hpos t))]
        rw [h1, if_pos (inv_pos.mpr (hpos t)), inv_inv]
      rw [Finset.prod_congr rfl (fun t _ => hfac t)]
      have hP : 0 < ∏ t ∈ Finset.range (o :: rest).length,
          fbS A _B _PI (o :: rest) t :=
        Finset.prod_pos (fun t _ => hpos t)
      have hP1 : ∏ t ∈ Finset.range (o :: rest).length,
          fbS A _B _PI (o :: rest) t ≤ 1 :=
        Finset.prod_le_one (fun t _ => (hpos t).le)
          (fun t _ => fbS_le_one (o :: rest) t)
      exact ⟨elog_ne_bot hP, elog_nonpos hP1⟩

theorem claim_C4_witness :
    elog (_forward_backward_gamma [0]).2 ≠ ⊥ ∧
      elog (_forward_backward_gamma [0]).2 ≤ 0 := by
  refine (claim_C4 [0] (by decide)).2 ⟨[0], rfl, ?_⟩
  show 0 < _PI 0 * _B 0 0 * jointAux 0 [] []
  norm_num [jointAux, _PI, _B]

/-- C5: if at some timestep the whole unnormalized forward mass is zero,
the engine still returns total, well-defined rationals: the posterior row
at that timestep is the uniform `[1/3, 1/3, 1/3]`, every returned row
still sums to 1, the step's scaling constant is the fallback `c[t] = 1`
(for the steps past the initialization, so the step contributes nothing to
the accumulated log-likelihood), and a zero-mass initialization makes the
whole call return the uniform table with likelihood 0, i.e. log-likelihood
`-inf` (`elog = ⊥`), reflecting impossibility without being undefined.
Stated over explicit parameters, since the fixed tables never produce
zero mass (`fbS_pos`). -/
theorem claim_C5 (Am : Fin 3 → Fin 3 → ℚ) (Bm : Fin 3 → Fin 4 → ℚ)
    (pv : Fin 3 → ℚ) (os : List (Fin 4)) (t : Nat) (ht : t < os.length)
    (hzero : ∀ j, fbAlphaPre Am Bm pv os t j = 0) :
    (forwardBackwardGamma Am Bm pv os).1.getD t [] = [1/3, 1/3, 1/3] ∧
    (∀ row ∈ (forwardBackwardGamma Am Bm pv os).1, row.sum = 1) ∧
    (1 ≤ t → fbC Am Bm pv os t = 1) ∧
    (t = 0 → (forwardBackwardGamma Am Bm pv os).2 = 0 ∧
      elog (forwardBackwardGamma Am Bm pv os).2 = ⊥) := by
  have hs : fbS Am Bm pv os t = 0 := by
    unfold fbS
    rw [hzero 0, hzero 1, hzero 2]
    ring
  have hC : fbC Am Bm pv os t = 1 := by
    unfold fbC
    rw [if_pos (le_of_eq hs)]
  rcases os with _ | ⟨o, rest⟩
  · simp at ht
  · by_cases h0 : fbS Am Bm pv (o :: rest) 0 ≤ 0
    · have hmain : forwardBackwardGamma Am Bm pv (o :: rest)
          = ((List.range (o :: rest).length).map (fun _ => [1/3, 1/3, 1/3]),
            0) := by
        unfold forwardBackwardGamma
        rw [if_pos h0]
      rw [hmain]
      refine ⟨rangeMap_getD _ _ _ _ ht, ?_, fun _ => hC,
        fun _ => ⟨rfl, elog_of_nonpos le_rfl⟩⟩
      intro row hrow
      simp only [List.mem_map] at hrow
      obtain ⟨u, _, rfl⟩ := hrow
      norm_num
    · have hmain : forwardBackwardGamma Am Bm pv (o :: rest)
          = ((List.range (o :: rest).length).map
              (fun u => fbGammaRow Am Bm pv (o :: rest) (o :: rest).length u),
            ∏ u ∈ Finset.range (o :: rest).length,
              (if 0 < fbC Am Bm pv (o :: rest) u
                then (fbC Am Bm pv (o :: rest) u)⁻¹ else 1)) := by
        unfold forwardBackwardGamma
        rw [if_neg h0]
      rw [hmain]
      have hα : fbAlpha Am Bm pv (o :: rest) t
          = fbAlphaPre Am Bm pv (o :: rest) t := by
        unfold fbAlpha
        rw [if_pos (le_of_eq hs)]
      have hrow_t : fbGammaRow Am Bm pv (o :: rest) (o :: rest).length t
          = [1/3, 1/3, 1/3] := by
        unfold fbGammaRow
        dsimp only
        rw [if_pos ?cond]
        case cond =>
          rw [hα, hzero 0, hzero 1, hzero 2]
          simp
      refine ⟨?_, ?_, fun _ => hC, ?_⟩
      · rw [rangeMap_getD _ _ _ _ ht, hrow_t]
      · intro row hrow
        simp only [List.mem_map] at hrow
        obtain ⟨u, _, rfl⟩ := hrow
        exact fbGammaRow_sum Am Bm pv _ _ u
      · intro h'
        subst h'
        exact absurd (le_of_eq hs) h0

theorem claim_C5_witness :
    fbC (fun _ _ => 1) (fun _ => ![1, 0, 0, 0]) ![1, 0, 0] [0, 1] 1 = 1 ∧
      (forwardBackwardGamma (fun _ _ => 1) (fun _ => ![1, 0, 0, 0])
          ![1, 0, 0] [0, 1]).1.getD 1 [] = [1/3, 1/3, 1/3] := by
  have hz : ∀ j, fbAlphaPre (fun _ _ => 1) (fun _ => ![1, 0, 0, 0])
      ![1, 0, 0] [0, 1] 1 j = 0 := by
    intro j
    rw [fbAlphaPre_succ]
    simp [obsAt]
  have h := claim_C5 (fun _ _ => 1) (fun _ => ![1, 0, 0, 0]) ![1, 0, 0]
    [0, 1] 1 (by decide) hz
  exact ⟨h.2.2.1 le_rfl, h.1⟩

/-! ## Victim-sequence extraction (`emotion_sequence.py`, lines 7-96) -/

/-- Embedding of `_extract_emotion_label` (source lines 7-45): shallow
label extraction (printed with `str`, no alias mapping, no recursion);
`None` exactly when the turn offers no usable emotion value. -/
def _extract_emotion_label (emo_val : PyVal) : Option String :=
  match emo_val with
  | PyVal.none => Option.none
  | PyVal.str s =>
    let s' := pyStrip s
    if s' = "" then Option.none else some s'
  | PyVal.dict kvs =>
    match getNN kvs "pred4" with
    | some pred4 =>
      let s := pyStrip (pyStr pred4)
      if s = "" then Option.none else some s
    | Option.none =>
      if isSurprise (dictGet kvs "pred8") then
        match getNN kvs "surprise_to" with
        | some st =>
          let s := pyStrip (pyStr st)
          if s = "" then Option.none else some s
        | Option.none => some "놀라움"
      else
        match getNN kvs "pred8" with
        | some p8 =>
          let s := pyStrip (pyStr p8)
          if s = "" then Option.none else some s
        | Option.none => Option.none
  | v =>
    let s := pyStrip (pyStr v)
    if s = "" then Option.none else some s

/-- `_get_first` (source lines 70-74): the first key of `keys` present in
the dict wins, even when its stored value is `None`. -/
def _get_first (kvs : List (String × PyVal)) : List String → Option PyVal
  | [] => Option.none
  | k :: rest =>
    match lookupKV kvs k with
    | some v => some v
    | Option.none => _get_first kvs rest

/-- Role string of a turn (source lines 80-81): printed, stripped and
lowered; a missing or `None` role value becomes the empty string. -/
def roleOf (t : List (String × PyVal)) (role_keys : List String) : String :=
  match _get_first t role_keys with
  | some v => if v.isNone then "" else pyLower (pyStrip (pyStr v))
  | Option.none => ""

/-- The victim-role set (source line 68): each configured role, stripped
and lowered. -/
def victimSet (victim_roles : List String) : List String :=
  victim_roles.map (fun v => pyLower (pyStrip v))

/-- Body of the extraction loop for a single turn (source lines 79-94):
victim-role test, emotion-field extraction, and the `drop_empty` skip;
yields the extracted raw label exactly when the turn contributes to the
sequence. -/
def turnLabel? (role_keys victim_roles emotion_keys : List String)
    (drop_empty : Bool) (t : List (String × PyVal)) : Option String :=
  if (victimSet victim_roles).contains (roleOf t role_keys) then
    match _extract_emotion_label
        ((_get_first t emotion_keys).getD PyVal.none) with
    | some e =>
      if drop_empty = true ∧ pyStrip e = "" then Option.none else some e
    | Option.none => Option.none
  else Option.none

/-- The `enumerate` loop of `extract_victim_emotion_sequence` starting at
index `i` (source lines 79-94); appending while iterating forward is
rendered as consing while recursing. -/
def extractFrom (role_keys victim_roles emotion_keys : List String)
    (drop_empty : Bool) (i : Nat) :
    List (List (String × PyVal)) → List String × List Nat
  | [] => ([], [])
  | t :: rest =>
    let r := extractFrom role_keys victim_roles emotion_keys drop_empty
      (i + 1) rest
    match turnLabel? role_keys victim_roles emotion_keys drop_empty t with
    | some e => (e :: r.1, i :: r.2)
    | Option.none => r

/-- Embedding of `extract_victim_emotion_sequence` (source lines 48-96)
with the source's default key and role candidates. -/
def extract_victim_emotion_sequence
    (turns : List (List (String × PyVal)))
    (role_keys : List String := ["speaker", "role", "who", "agent"])
    (victim_roles : List String := ["victim", "user", "customer"])
    (emotion_keys : List String :=
      ["emotion", "emotion_label", "emotionTag", "emotion_tag"])
    (drop_empty : Bool := true) : List String × List Nat :=
  extractFrom role_keys victim_roles emotion_keys drop_empty 0 turns

/-- Full characterization of the extraction loop, for an arbitrary start
index: the two returned lists are aligned; indices are strictly
increasing and in range; each extracted label is the extraction of the
turn at its paired index; and an index is returned iff its turn
extracts. -/
theorem extractFrom_spec (rk vr ek : List String) (de : Bool) (i : Nat)
    (ts : List (List (String × PyVal))) :
    (extractFrom rk vr ek de i ts).1.length
        = (extractFrom rk vr ek de i ts).2.length ∧
    (extractFrom rk vr ek de i ts).2.Pairwise (· < ·) ∧
    (∀ n ∈ (extractFrom rk vr ek de i ts).2, i ≤ n ∧ n < i + ts.length) ∧
    (∀ p ∈ (extractFrom rk vr ek de i ts).1.zip
        (extractFrom rk vr ek de i ts).2,
      turnLabel? rk vr ek de (ts.getD (p.2 - i) []) = some p.1) ∧
    (∀ j, j < ts.length → ((i + j) ∈ (extractFrom rk vr ek de i ts).2 ↔
      (turnLabel? rk vr ek de (ts.getD j [])).isSome = true)) := by
  induction ts generalizing i with
  | nil =>
    simp only [extractFrom]
    refine ⟨rfl, List.Pairwise.nil, ?_, ?_, ?_⟩
    · intro n hn; simp at hn
    · intro p hp; simp at hp
    · intro j hj; simp at hj
  | cons t rest ih =>
    obtain ⟨ihlen, ihpw, ihmem, ihzip, ihiff⟩ := ih (i + 1)
    rw [extractFrom]
    rcases hl : turnLabel? rk vr ek de t with _ | e <;> dsimp only
    · -- this turn is skipped
      refine ⟨ihlen, ihpw, ?_, ?_, ?_⟩
      · intro n hn
        have := ihmem n hn
        rw [List.length_cons]
        omega
      · intro p hp
        have hmem := List.of_mem_zip hp
        have hge := (ihmem p.2 hmem.2).1
        have := ihzip p hp
        rwa [show t :: rest = [t] ++ rest from rfl,
          List.getD_append_right _ _ _ _ (by simp; omega),
          show p.2 - i - [t].length = p.2 - (i + 1) by simp; omega]
      · intro j hj
        rcases j with _ | j
        · constructor
          · intro hmem
            have := (ihmem _ hmem).1
            omega
          · intro hsome
            rw [List.getD_cons_zero] at hsome
            rw [hl] at hsome
            cases hsome
        · rw [List.getD_cons_succ]
          rw [List.length_cons] at hj
          have := ihiff j (by omega)
          rw [show i + (j + 1) = (i + 1) + j by omega]
          exact this
    · -- this turn contributes (e, i)
      refine ⟨?_, ?_, ?_, ?_, ?_⟩
      · rw [List.length_cons, List.length_cons, ihlen]
      · rw [List.pairwise_cons]
        exact ⟨fun n hn => by have := (ihmem n hn).1; omega, ihpw⟩
      · intro n hn
        rw [List.length_cons]
        rcases List.mem_cons.mp hn with rfl | hn'
        · omega
        · have := ihmem n hn'
          omega
      · intro p hp
        rw [List.zip_cons_cons] at hp
        rcases List.mem_cons.mp hp with rfl | hp'
        · rw [Nat.sub_self, List.getD_cons_zero, hl]
        · have hmem := List.of_mem_zip hp'
          have hge := (ihmem p.2 hmem.2).1
          have := ihzip p hp'
          rwa [show t :: rest = [t] ++ rest from rfl,
            List.getD_append_right _ _ _ _ (by simp; omega),
            show p.2 - i - [t].length = p.2 - (i + 1) by simp; omega]
      · intro j hj
        rcases j with _ | j
        · rw [List.getD_cons_zero, hl]
          simp
        · rw [List.getD_cons_succ]
          rw [List.length_cons] at hj
          have hiff := ihiff j (by omega)
          rw [show i + (j + 1) = (i + 1) + j by omega]
          rw [List.mem_cons]
          constructor
          · intro hc
            rcases hc with hc | hc
            · omega
            · exact hiff.mp hc
          · intro hsome
            exact Or.inr (hiff.mpr hsome)

theorem getD_set_ne {α : Type} (l : List α) (n m : Nat) (a d : α)
    (h : n ≠ m) : (l.set n a).getD m d = l.getD m d := by
  rw [List.getD_eq_getElem?_getD, List.getElem?_set_ne h,
    ← List.getD_eq_getElem?_getD]

theorem getD_set_eq {α : Type} (l : List α) (n : Nat) (a d : α)
    (h : n < l.length) : (l.set n a).getD n d = a := by
  rw [List.getD_eq_getElem?_getD, List.getElem?_set_self]
  · rfl
  · exact h

theorem getD_mem {α : Type} (l : List α) (n : Nat) (d : α)
    (h : n < l.length) : l.getD n d ∈ l := by
  rw [List.getD_eq_getElem _ _ h]
  exact List.getElem_mem h

/-- C8: the two lists returned by `extract_victim_emotion_sequence` are
aligned (equal lengths, the i-th label extracted from the turn at the i-th
returned index), the indices are strictly increasing original positions,
an index is returned exactly when its turn extracts a usable victim
emotion (so unusable turns are skipped, and nothing is fabricated), and a
turn list with no victim-role turn yields two empty lists. -/
theorem claim_C8 (turns : List (List (String × PyVal))) :
    (extract_victim_emotion_sequence turns).1.length
        = (extract_victim_emotion_sequence turns).2.length ∧
    (extract_victim_emotion_sequence turns).2.Pairwise (· < ·) ∧
    (∀ p ∈ (extract_victim_emotion_sequence turns).1.zip
        (extract_victim_emotion_sequence turns).2,
      p.2 < turns.length ∧
      turnLabel? ["speaker", "role", "who", "agent"]
        ["victim", "user", "customer"]
        ["emotion", "emotion_label", "emotionTag", "emotion_tag"] true
        (turns.getD p.2 []) = some p.1) ∧
    (∀ j, j < turns.length →
      (j ∈ (extract_victim_emotion_sequence turns).2 ↔
        (turnLabel? ["speaker", "role", "who", "agent"]
          ["victim", "user", "customer"]
          ["emotion", "emotion_label", "emotionTag", "emotion_tag"] true
          (turns.getD j [])).isSome = true)) ∧
    ((∀ t ∈ turns,
        (victimSet ["victim", "user", "customer"]).contains
          (roleOf t ["speaker", "role", "who", "agent"]) = false) →
      extract_victim_emotion_sequence turns = ([], [])) := by
  obtain ⟨hlen, hpw, hmem, hzip, hiff⟩ :=
    extractFrom_spec ["speaker", "role", "who", "agent"]
      ["victim", "user", "customer"]
      ["emotion", "emotion_label", "emotionTag", "emotion_tag"] true 0 turns
  refine ⟨hlen, hpw, ?_, ?_, ?_⟩
  · intro p hp
    have h1 := hmem p.2 (List.of_mem_zip hp).2
    have h2 := hzip p hp
    rw [Nat.sub_zero] at h2
    exact ⟨by omega, h2⟩
  · intro j hj
    have := hiff j hj
    rwa [Nat.zero_add] at this
  · intro hnv
    have hnone : ∀ j, j < turns.length →
        turnLabel? ["speaker", "role", "who", "agent"]
          ["victim", "user", "customer"]
          ["emotion", "emotion_label", "emotionTag", "emotion_tag"] true
          (turns.getD j []) = Option.none := by
      intro j hj
      have ht : turns.getD j [] ∈ turns := getD_mem turns j [] hj
      unfold turnLabel?
      rw [if_neg (by rw [hnv _ ht]; simp)]
    have h2 : (extract_victim_emotion_sequence turns).2 = [] := by
      rcases hI : (extract_victim_emotion_sequence turns).2 with _ | ⟨n, ns⟩
      · rfl
      · have hn : n ∈ (extract_victim_emotion_sequence turns).2 := by
          rw [hI]; exact List.mem_cons_self _ _
        have hb := hmem n hn
        have hin := (hiff n (by omega)).mp (by rwa [Nat.zero_add])
        rw [hnone n (by omega)] at hin
        cases hin
    have h1 : (extract_victim_emotion_sequence turns).1 = [] := by
      apply List.length_eq_zero.mp
      show (extractFrom ["speaker", "role", "who", "agent"]
        ["victim", "user", "customer"]
        ["emotion", "emotion_label", "emotionTag", "emotion_tag"]
        true 0 turns).1.length = 0
      rw [hlen]
      show (extract_victim_emotion_sequence turns).2.length = 0
      rw [h2]
      rfl
    exact Prod.ext h1 h2

theorem claim_C8_witness :
    1 ∈ (extract_victim_emotion_sequence
      [[("role", PyVal.str "offender")],
       [("role", PyVal.str "victim"),
        ("emotion", PyVal.dict [("pred4", PyVal.str "F")])]]).2 ∧
    ¬ 0 ∈ (extract_victim_emotion_sequence
      [[("role", PyVal.str "offender")],
       [("role", PyVal.str "victim"),
        ("emotion", PyVal.dict [("pred4", PyVal.str "F")])]]).2 := by
  have h := claim_C8
    [[("role", PyVal.str "offender")],
     [("role", PyVal.str "victim"),
      ("emotion", PyVal.dict [("pred4", PyVal.str "F")])]]
  constructor
  · exact (h.2.2.2.1 1 (by decide)).mpr (by decide)
  · intro hc
    exact absurd ((h.2.2.2.1 0 (by decide)).mp hc) (by decide)

/-! ## Turn annotation (`attach_vulnerability_states_to_turns`,
source lines 281-301) -/

/-- Python dict assignment `d[key] = v` on an association list: replace
the first binding of `key` in place, or append a fresh one. -/
def setKey : List (String × PyVal) → String → PyVal → List (String × PyVal)
  | [], key, v => [(key, v)]
  | (k, w) :: rest, key, v =>
    if k = key then (k, v) :: rest else (k, w) :: setKey rest key v

theorem setKey_lookup_eq (d : List (String × PyVal)) (key : String)
    (v : PyVal) : lookupKV (setKey d key v) key = some v := by
  induction d with
  | nil => simp [setKey, lookupKV]
  | cons a rest ih =>
    obtain ⟨k, w⟩ := a
    rw [setKey]
    split_ifs with h
    · rw [lookupKV, if_pos h]
    · rw [lookupKV, if_neg h, ih]

theorem setKey_lookup_ne (d : List (String × PyVal)) (key k : String)
    (v : PyVal) (h : k ≠ key) :
    lookupKV (setKey d key v) k = lookupKV d k := by
  induction d with
  | nil =>
    rw [setKey, lookupKV, lookupKV, lookupKV, if_neg (fun e => h e.symm)]
  | cons a rest ih =>
    obtain ⟨k', w⟩ := a
    rw [setKey]
    split_ifs with h'
    · subst h'
      rw [lookupKV, lookupKV, if_neg (fun e => h e.symm),
        if_neg (fun e => h e.symm)]
    · rw [lookupKV, lookupKV]
      split_ifs with h''
      · rfl
      · exact ih

/-- The annotation loop (source lines 297-301) over the zipped pairs,
threading the turn list mutated in place by the source; returns the final
list state together with the raised exception, if any (an invalid state
aborts the loop midway exactly like the Python `raise`, keeping earlier
writes). -/
def attachGo (out_key : String) :
    List (List (String × PyVal)) → List (Int × String) →
      List (List (String × PyVal)) × Option String
  | ts, [] => (ts, Option.none)
  | ts, (idx, st) :: rest =>
    if STATES.contains st then
      if 0 ≤ idx ∧ idx < (ts.length : Int) then
        attachGo out_key
          (ts.set idx.toNat
            (setKey (ts.getD idx.toNat []) out_key (PyVal.str st))) rest
      else attachGo out_key ts rest
    else (ts, some ("Invalid HMM state: " ++ st))

/-- Embedding of `attach_vulnerability_states_to_turns` (source lines
281-301).  The Python function mutates `turns` in place and returns
`None`; the embedding returns the post-call list state together with the
raised exception, if any. -/
def attach_vulnerability_states_to_turns
    (turns : List (List (String × PyVal)))
    (victim_turn_indices : List Int) (viterbi_states : List String)
    (out_key : String := "vulnerability_state") :
    List (List (String × PyVal)) × Option String :=
  if victim_turn_indices.length ≠ viterbi_states.length then
    (turns, some "victim_turn_indices and viterbi_states length mismatch.")
  else attachGo out_key turns (victim_turn_indices.zip viterbi_states)

/-- Full characterization of the annotation loop on valid states: no
exception, preserved length, positions no pair names are untouched, keys
other than `out_key` are untouched everywhere, and every position some
pair names carries the state of one of its pairs under `out_key`. -/
theorem attachGo_spec (key : String) (pairs : List (Int × String))
    (ts : List (List (String × PyVal)))
    (hv : ∀ p ∈ pairs, STATES.contains p.2 = true) :
    (attachGo key ts pairs).2 = Option.none ∧
    (attachGo key ts pairs).1.length = ts.length ∧
    (∀ i, i < ts.length → (∀ p ∈ pairs, p.1 ≠ (i : Int)) →
      (attachGo key ts pairs).1.getD i [] = ts.getD i []) ∧
    (∀ i, i < ts.length → ∀ k, k ≠ key →
      lookupKV ((attachGo key ts pairs).1.getD i []) k
        = lookupKV (ts.getD i []) k) ∧
    (∀ i, i < ts.length → (∃ p ∈ pairs, p.1 = (i : Int)) →
      ∃ p ∈ pairs, p.1 = (i : Int) ∧
        lookupKV ((attachGo key ts pairs).1.getD i []) key
          = some (PyVal.str p.2)) := by
  induction pairs generalizing ts with
  | nil =>
    refine ⟨rfl, rfl, fun i _ _ => rfl, fun i _ k _ => rfl, ?_⟩
    intro i _ h
    obtain ⟨p, hp, _⟩ := h
    simp at hp
  | cons q rest ih =>
    obtain ⟨idx, st⟩ := q
    have hst : STATES.contains st = true := hv (idx, st) (List.mem_cons_self _ _)
    have hvr : ∀ p ∈ rest, STATES.contains p.2 = true :=
      fun p hp => hv p (List.mem_cons_of_mem _ hp)
    rw [attachGo, if_pos hst]
    by_cases hin : 0 ≤ idx ∧ idx < (ts.length : Int)
    · rw [if_pos hin]
      set ts' := ts.set idx.toNat
        (setKey (ts.getD idx.toNat []) key (PyVal.str st)) with hts'
      have hlen' : ts'.length = ts.length := by
        rw [hts', List.length_set]
      obtain ⟨ih1, ih2, ih3, ih4, ih5⟩ := ih ts' hvr
      have hgetne : ∀ i, i < ts.length → idx ≠ (i : Int) →
          ts'.getD i [] = ts.getD i [] := by
        intro i _ hne
        rw [hts']
        exact getD_set_ne _ _ _ _ _ (by omega)
      refine ⟨ih1, by rw [ih2, hlen'], ?_, ?_, ?_⟩
      · intro i hi hnp
        rw [ih3 i (by omega) (fun p hp => hnp p (List.mem_cons_of_mem _ hp))]
        exact hgetne i hi (hnp (idx, st) (List.mem_cons_self _ _))
      · intro i hi k hk
        rw [ih4 i (by omega) k hk]
        by_cases hie : idx = (i : Int)
        · have : idx.toNat = i := by omega
          rw [hts', this, getD_set_eq _ _ _ _ hi]
          exact setKey_lookup_ne _ _ _ _ hk
        · rw [hgetne i hi hie]
      · intro i hi hex
        by_cases hrest : ∃ p ∈ rest, p.1 = (i : Int)
        · obtain ⟨p, hp, hpi, hlk⟩ := ih5 i (by omega) hrest
          exact ⟨p, List.mem_cons_of_mem _ hp, hpi, hlk⟩
        · obtain ⟨p, hp, hpi⟩ := hex
          rcases List.mem_cons.mp hp with rfl | hp'
          · refine ⟨(idx, st), List.mem_cons_self _ _, hpi, ?_⟩
            rw [ih3 i (by omega) (fun p' hp' he => hrest ⟨p', hp', he⟩)]
            have hti : idx.toNat = i := by
              have : idx = (i : Int) := hpi
              omega
            rw [hts', hti, getD_set_eq _ _ _ _ hi]
            exact setKey_lookup_eq _ _ _
          · exact absurd ⟨p, hp', hpi⟩ hrest
    · rw [if_neg hin]
      obtain ⟨ih1, ih2, ih3, ih4, ih5⟩ := ih ts hvr
      refine ⟨ih1, ih2, ?_, ih4, ?_⟩
      · intro i hi hnp
        exact ih3 i hi (fun p hp => hnp p (List.mem_cons_of_mem _ hp))
      · intro i hi hex
        obtain ⟨p, hp, hpi⟩ := hex
        rcases List.mem_cons.mp hp with rfl | hp'
        · exact absurd ⟨by omega, by omega⟩ hin
        · obtain ⟨p', hp'', hpi', hlk⟩ := ih5 i hi ⟨p, hp', hpi⟩
          exact ⟨p', List.mem_cons_of_mem _ hp'', hpi', hlk⟩

/-- On valid states, out-of-range pairs are skipped without any effect:
the loop computes the same result as on the in-range sublist of its pairs.
(The validity hypothesis matters because the source checks the state
before the range, so an invalid state raises even on an out-of-range
index.) -/
theorem attachGo_skip (key : String) (pairs : List (Int × String))
    (ts : List (List (String × PyVal))) (n : Nat) (hn : ts.length = n)
    (hv : ∀ p ∈ pairs, STATES.contains p.2 = true) :
    attachGo key ts pairs
      = attachGo key ts (pairs.filter
          (fun p => decide (0 ≤ p.1) && decide (p.1 < (n : Int)))) := by
  induction pairs generalizing ts with
  | nil => rfl
  | cons q rest ih =>
    obtain ⟨idx, st⟩ := q
    have hst : STATES.contains st = true := hv (idx, st) (List.mem_cons_self _ _)
    have hvr : ∀ p ∈ rest, STATES.contains p.2 = true :=
      fun p hp => hv p (List.mem_cons_of_mem _ hp)
    rw [List.filter_cons]
    by_cases hin : 0 ≤ idx ∧ idx < (n : Int)
    · rw [if_pos (by simp [hin.1, hin.2])]
      rw [attachGo, attachGo, if_pos hst, if_pos hst]
      subst hn
      rw [if_pos ⟨hin.1, hin.2⟩, if_pos ⟨hin.1, hin.2⟩]
      exact ih _ (by rw [List.length_set]) hvr
    · rw [if_neg (by simpa using fun h1 h2 => hin ⟨h1, h2⟩)]
      rw [attachGo, if_pos hst]
      subst hn
      rw [if_neg hin]
      exact ih ts rfl hvr

theorem mem_zip_left {α β : Type} {l1 : List α} {l2 : List β}
    (h : l1.length = l2.length) {a : α} (ha : a ∈ l1) :
    ∃ b, (a, b) ∈ l1.zip l2 := by
  induction l1 generalizing l2 with
  | nil => cases ha
  | cons x xs ihx =>
    rcases l2 with _ | ⟨y, ys⟩
    · cases h
    · rcases List.mem_cons.mp ha with rfl | ha'
      · exact ⟨y, by rw [List.zip_cons_cons]; exact List.mem_cons_self _ _⟩
      · have h' : xs.length = ys.length := by
          rw [List.length_cons, List.length_cons] at h
          omega
        obtain ⟨b, hb⟩ := ihx h' ha'
        exact ⟨b, by rw [List.zip_cons_cons]; exact List.mem_cons_of_mem _ hb⟩

/-! ## Claims C6, C7 and C10 -/

/-- C6: with index and state lists of different lengths, the annotation
call raises the alignment error and the turn list is left completely
unmodified. -/
theorem claim_C6 (turns : List (List (String × PyVal)))
    (idxs : List Int) (sts : List String) (key : String)
    (h : idxs.length ≠ sts.length) :
    attach_vulnerability_states_to_turns turns idxs sts key
      = (turns,
        some "victim_turn_indices and viterbi_states length mismatch.") := by
  unfold attach_vulnerability_states_to_turns
  rw [if_pos h]

theorem claim_C6_witness :
    attach_vulnerability_states_to_turns
        [[("text", PyVal.str "hello")]] [0, 1, 2] ["V1", "V2"]
        "vulnerability_state"
      = ([[("text", PyVal.str "hello")]],
        some "victim_turn_indices and viterbi_states length mismatch.") :=
  claim_C6 [[("text", PyVal.str "hello")]] [0, 1, 2] ["V1", "V2"]
    "vulnerability_state" (by decide)

/-- C7: on a successful call (aligned lists, valid states, in-range
listed indices), no exception is raised, length and order of the turn
sequence are preserved, turns at unlisted positions are exactly unchanged,
every key other than `out_key` of every turn is unchanged, and each
listed turn carries one of the supplied states under `out_key`. -/
theorem claim_C7 (turns : List (List (String × PyVal)))
    (idxs : List Int) (sts : List String) (key : String)
    (hlen : idxs.length = sts.length)
    (hst : ∀ st ∈ sts, STATES.contains st = true)
    (hrange : ∀ idx ∈ idxs, 0 ≤ idx ∧ idx < (turns.length : Int)) :
    (attach_vulnerability_states_to_turns turns idxs sts key).2
        = Option.none ∧
    (attach_vulnerability_states_to_turns turns idxs sts key).1.length
        = turns.length ∧
    (∀ i, i < turns.length → (i : Int) ∉ idxs →
      (attach_vulnerability_states_to_turns turns idxs sts key).1.getD i []
        = turns.getD i []) ∧
    (∀ i, i < turns.length → ∀ k, k ≠ key →
      lookupKV
          ((attach_vulnerability_states_to_turns turns idxs sts key).1.getD
            i []) k
        = lookupKV (turns.getD i []) k) ∧
    (∀ i, i < turns.length → (i : Int) ∈ idxs →
      ∃ st ∈ sts,
        lookupKV
            ((attach_vulnerability_states_to_turns turns idxs
              sts key).1.getD i []) key
          = some (PyVal.str st)) := by
  have heq : attach_vulnerability_states_to_turns turns idxs sts key
      = attachGo key turns (idxs.zip sts) := by
    unfold attach_vulnerability_states_to_turns
    rw [if_neg (fun hx => hx hlen)]
  have hv : ∀ p ∈ idxs.zip sts, STATES.contains p.2 = true :=
    fun p hp => hst p.2 (List.of_mem_zip hp).2
  obtain ⟨h1, h2, h3, h4, h5⟩ := attachGo_spec key (idxs.zip sts) turns hv
  rw [heq]
  refine ⟨h1, h2, ?_, h4, ?_⟩
  · intro i hi hni
    exact h3 i hi (fun p hp he => hni (he ▸ (List.of_mem_zip hp).1))
  · intro i hi hmemi
    obtain ⟨b, hb⟩ := mem_zip_left hlen hmemi
    obtain ⟨p, hp, _, hlk⟩ := h5 i hi ⟨((i : Int), b), hb, rfl⟩
    exact ⟨p.2, (List.of_mem_zip hp).2, hlk⟩

theorem claim_C7_witness :
    lookupKV
        ((attach_vulnerability_states_to_turns
          [[("text", PyVal.str "hi")]] [0] ["V2"]
          "vulnerability_state").1.getD 0 []) "vulnerability_state"
      = some (PyVal.str "V2") := by
  have h := claim_C7 [[("text", PyVal.str "hi")]] [0] ["V2"]
    "vulnerability_state" (by decide) (by decide) (by decide)
  obtain ⟨st, hmem, hlk⟩ := h.2.2.2.2 0 (by decide) (by decide)
  have hst : st = "V2" := by simpa using hmem
  rw [hst] at hlk
  exact hlk

/-- C10 (implicit): with aligned lists and valid states, listed indices
outside `[0, len(turns))` are silently skipped — no exception, no
annotation for them, the call behaves exactly as if those pairs were
filtered out — while in-range listed indices are still annotated and the
length is unchanged. -/
theorem claim_C10 (turns : List (List (String × PyVal)))
    (idxs : List Int) (sts : List String) (key : String)
    (hlen : idxs.length = sts.length)
    (hst : ∀ st ∈ sts, STATES.contains st = true) :
    (attach_vulnerability_states_to_turns turns idxs sts key).2
        = Option.none ∧
    (attach_vulnerability_states_to_turns turns idxs sts key).1.length
        = turns.length ∧
    attach_vulnerability_states_to_turns turns idxs sts key
        = attachGo key turns ((idxs.zip sts).filter
            (fun p => decide (0 ≤ p.1)
              && decide (p.1 < (turns.length : Int)))) ∧
    (∀ i, i < turns.length → (i : Int) ∉ idxs →
      (attach_vulnerability_states_to_turns turns idxs sts key).1.getD i []
        = turns.getD i []) ∧
    (∀ i, i < turns.length → (i : Int) ∈ idxs →
      ∃ st ∈ sts,
        lookupKV
            ((attach_vulnerability_states_to_turns turns idxs
              sts key).1.getD i []) key
          = some (PyVal.str st)) := by
  have heq : attach_vulnerability_states_to_turns turns idxs sts key
      = attachGo key turns (idxs.zip sts) := by
    unfold attach_vulnerability_states_to_turns
    rw [if_neg (fun hx => hx hlen)]
  have hv : ∀ p ∈ idxs.zip sts, STATES.contains p.2 = true :=
    fun p hp => hst p.2 (List.of_mem_zip hp).2
  obtain ⟨h1, h2, h3, _, h5⟩ := attachGo_spec key (idxs.zip sts) turns hv
  refine ⟨heq ▸ h1, heq ▸ h2, ?_, ?_, ?_⟩
  · rw [heq]
    exact attachGo_skip key (idxs.zip sts) turns turns.length rfl hv
  · intro i hi hni
    rw [heq]
    exact h3 i hi (fun p hp he => hni (he ▸ (List.of_mem_zip hp).1))
  · intro i hi hmemi
    obtain ⟨b, hb⟩ := mem_zip_left hlen hmemi
    obtain ⟨p, hp, _, hlk⟩ := h5 i hi ⟨((i : Int), b), hb, rfl⟩
    rw [heq]
    exact ⟨p.2, (List.of_mem_zip hp).2, hlk⟩

theorem claim_C10_witness :
    (attach_vulnerability_states_to_turns [[("a", PyVal.none)]] [5, 0]
        ["V3", "V1"] "vulnerability_state").2 = Option.none ∧
    (attach_vulnerability_states_to_turns [[("a", PyVal.none)]] [5, 0]
        ["V3", "V1"] "vulnerability_state").1.length = 1 := by
  have h := claim_C10 [[("a", PyVal.none)]] [5, 0] ["V3", "V1"]
    "vulnerability_state" (by decide) (by decide)
  exact ⟨h.1, h.2.1⟩

/-! ## Claims C1 and C9 -/

theorem pyMaxIdx4_spec (q0 q1 q2 q3 : ℚ) :
    pyMaxIdx4 q0 q1 q2 q3 < 4 ∧
    (∀ j, j < 4 → [q0, q1, q2, q3].getD j 0
        ≤ [q0, q1, q2, q3].getD (pyMaxIdx4 q0 q1 q2 q3) 0) ∧
    (∀ j, j < pyMaxIdx4 q0 q1 q2 q3 →
      [q0, q1, q2, q3].getD j 0
        < [q0, q1, q2, q3].getD (pyMaxIdx4 q0 q1 q2 q3) 0) := by
  unfold pyMaxIdx4 pyMax2
  dsimp only
  split_ifs <;>
    refine ⟨by norm_num, fun j hj => ?_, fun j hj => ?_⟩ <;>
    interval_cases j <;> simp_all <;> linarith

/-- C1 (amended): the structured (dict) arm of `normalize_emotion`
consults its fields in this order: a present, non-`None` `pred4` is
normalized recursively; else if `pred8` denotes "surprise" a present,
non-`None` `surprise_to` is preferred, falling back to normalizing the
8-class value; else a valid 4-element `probs4` decides by first-maximum
arg-max under the column ordering `[N, F, A, E]`; else any remaining
non-`None` `pred8` is normalized; else the call fails.  (The claim's
ordering, in which a non-surprise categorical `pred8` always precedes
`probs4`, is refuted by `claim_C1_counterexample`.) -/
theorem claim_C1 :
    (∀ kvs al v4, getNN kvs "pred4" = some v4 →
      normalize_emotion (PyVal.dict kvs) al = normalize_emotion v4 al) ∧
    (∀ kvs al p8 st, getNN kvs "pred4" = Option.none →
      getNN kvs "pred8" = some p8 → isSurprise p8 = true →
      getNN kvs "surprise_to" = some st →
      normalize_emotion (PyVal.dict kvs) al = normalize_emotion st al) ∧
    (∀ kvs al p8, getNN kvs "pred4" = Option.none →
      getNN kvs "pred8" = some p8 → isSurprise p8 = true →
      getNN kvs "surprise_to" = Option.none →
      normalize_emotion (PyVal.dict kvs) al = normalize_emotion p8 al) ∧
    (∀ kvs al p8 code, getNN kvs "pred4" = Option.none →
      getNN kvs "pred8" = some p8 → isSurprise p8 = false →
      _map_probs4_to_code (dictGet kvs "probs4") = some code →
      normalize_emotion (PyVal.dict kvs) al
        = normalize_emotion_str code al) ∧
    (∀ kvs al p8, getNN kvs "pred4" = Option.none →
      getNN kvs "pred8" = some p8 → isSurprise p8 = false →
      _map_probs4_to_code (dictGet kvs "probs4") = Option.none →
      normalize_emotion (PyVal.dict kvs) al = normalize_emotion p8 al) ∧
    (∀ kvs al code, getNN kvs "pred4" = Option.none →
      getNN kvs "pred8" = Option.none →
      _map_probs4_to_code (dictGet kvs "probs4") = some code →
      normalize_emotion (PyVal.dict kvs) al
        = normalize_emotion_str code al) ∧
    (∀ kvs al, getNN kvs "pred4" = Option.none →
      getNN kvs "pred8" = Option.none →
      _map_probs4_to_code (dictGet kvs "probs4") = Option.none →
      normalize_emotion (PyVal.dict kvs) al
        = .error "Unsupported emotion dict (no usable keys)") ∧
    (∀ q0 q1 q2 q3 : ℚ, ∃ i, i < 4 ∧
      _map_probs4_to_code (PyVal.list
          [PyVal.num q0, PyVal.num q1, PyVal.num q2, PyVal.num q3])
        = some (["N", "F", "A", "E"].getD i "") ∧
      (∀ j, j < 4 → [q0, q1, q2, q3].getD j 0
          ≤ [q0, q1, q2, q3].getD i 0) ∧
      (∀ j, j < i → [q0, q1, q2, q3].getD j 0
          < [q0, q1, q2, q3].getD i 0)) := by
  refine ⟨fun kvs al v4 h4 => normalize_emotion_dict_pred4 al h4,
    fun kvs al p8 st h4 h8 hs hst =>
      normalize_emotion_dict_surprise_to al h4 h8 hs hst,
    fun kvs al p8 h4 h8 hs hst =>
      normalize_emotion_dict_surprise_p8 al h4 h8 hs hst,
    fun kvs al p8 code h4 h8 hs hc =>
      normalize_emotion_dict_probs4 al h4 h8 hs hc,
    fun kvs al p8 h4 h8 hs hc =>
      normalize_emotion_dict_p8 al h4 h8 hs hc,
    fun kvs al code h4 h8 hc =>
      normalize_emotion_dict_probs4_only al h4 h8 hc,
    fun kvs al h4 h8 hc => normalize_emotion_dict_fail al h4 h8 hc,
    fun q0 q1 q2 q3 => ?_⟩
  obtain ⟨hb, hle, hlt⟩ := pyMaxIdx4_spec q0 q1 q2 q3
  exact ⟨pyMaxIdx4 q0 q1 q2 q3, hb, rfl, hle, hlt⟩

/-- Counterexample to C1 as stated: this dict carries the non-surprise
categorical 8-class label `"분노"` (anger), whose normalization is
`"anger"`, together with a valid `probs4` whose arg-max column is `N`;
the code consults `probs4` before the plain 8-class fallback and returns
`"neutral"`, so the distribution is not used "only when no categorical
label is available". -/
theorem claim_C1_counterexample :
    normalize_emotion (PyVal.dict [("pred8", PyVal.str "분노"),
        ("probs4", PyVal.list [PyVal.num 1, PyVal.num 0, PyVal.num 0,
          PyVal.num 0])]) Option.none = .ok "neutral" ∧
    normalize_emotion (PyVal.str "분노") Option.none = .ok "anger" := by
  constructor
  · rw [@normalize_emotion_dict_probs4
      [("pred8", PyVal.str "분노"),
        ("probs4", PyVal.list [PyVal.num 1, PyVal.num 0, PyVal.num 0,
          PyVal.num 0])]
      (PyVal.str "분노") "N" Option.none (by rfl) (by rfl) (by rfl) (by rfl)]
    decide
  · rw [normalize_emotion_str_case]
    decide

theorem claim_C1_witness :
    normalize_emotion (PyVal.dict [("pred4", PyVal.str "F")]) Option.none
      = normalize_emotion (PyVal.str "F") Option.none :=
  claim_C1.1 [("pred4", PyVal.str "F")] Option.none (PyVal.str "F") (by rfl)

/-- C9: `normalize_emotion` is the identity on the four canonical
symbols; every entry of the default alias table maps to its canonical
value, including the upper-case single-letter codes `N`, `F`, `A`, `E`;
and an alias resolving outside the canonical four makes the call fail
with the loud alias-configuration error instead of coercing. -/
theorem claim_C9 :
    (∀ s ∈ EMOTIONS,
      normalize_emotion (PyVal.str s) Option.none = .ok s) ∧
    (∀ p ∈ DEFAULT_EMOTION_ALIASES,
      normalize_emotion (PyVal.str p.1) Option.none = .ok p.2) ∧
    (normalize_emotion (PyVal.str "N") Option.none = .ok "neutral" ∧
      normalize_emotion (PyVal.str "F") Option.none = .ok "fear" ∧
      normalize_emotion (PyVal.str "A") Option.none = .ok "anger" ∧
      normalize_emotion (PyVal.str "E") Option.none = .ok "excitement") ∧
    (∀ al s m, lookupStr al (pyLower (pyStrip s)) = some m →
      EMOTIONS.contains (pyLower (pyStrip s)) = false →
      EMOTIONS.contains (pyLower (pyStrip m)) = false →
      al.isEmpty = false →
      normalize_emotion (PyVal.str s) (some al)
        = .error ("Alias mapped to invalid emotion: "
            ++ pyLower (pyStrip m))) := by
  refine ⟨?_, ?_, ?_, ?_⟩
  · intro s hs
    fin_cases hs <;> (rw [normalize_emotion_str_case]; decide)
  · intro p hp
    fin_cases hp <;> (rw [normalize_emotion_str_case]; decide)
  · refine ⟨?_, ?_, ?_, ?_⟩ <;> (rw [normalize_emotion_str_case]; decide)
  · intro al s m hlk hcs hcm hne
    rw [normalize_emotion_str_case]
    unfold normalize_emotion_str
    have hal : resolveAliases (some al) = al := by
      show (if al.isEmpty = true then DEFAULT_EMOTION_ALIASES else al) = al
      rw [if_neg (by rw [hne]; simp)]
    rw [hal, if_neg (by rw [hcs]; simp), hlk]
    dsimp only
    rw [if_neg (by rw [hcm]; simp)]

theorem claim_C9_witness :
    normalize_emotion (PyVal.str "x") (some [("x", "bogus")])
      = .error "Alias mapped to invalid emotion: bogus" :=
  claim_C9.2.2.2 [("x", "bogus")] "x" "bogus" (by decide) (by decide)
    (by decide) (by decide)

end VP2
